/-
  Verification of the brainforge-proposal-writer RAG ingestion pipeline.

  Shallow embedding of the Python sources under RAG_Pipeline/ :
    - common/text_processor.py        (chunk_text, cleaning)
    - common/section_aware_chunking.py (extract_sections, split_section_at_paragraphs,
                                        extract_section_name, create_section_aware_chunks)
    - common/metadata_parser.py        (extract_frontmatter, validate_frontmatter,
                                        parse_case_study)
    - common/schemas.py                (CaseStudyFrontmatter, IngestionResult, ...)
    - common/db_handler.py             (delete_document_by_file_id, insert_*,
                                        process_file_for_rag)
    - common/async_db_handler.py       (async_retry, process_file_for_rag_async)
    - Google_Drive/drive_watcher.py    (check_for_deleted_files)

  Text is modelled as `List Char` (Python str), byte content as its decoded text.
  Machine integers do not overflow in any relevant code path, so Nat/Int are used
  directly.  External services (Supabase, the embedding API, yaml.safe_load, the
  csv module) are modelled as explicit oracle parameters; the database is a state
  record of three tables and every handler returns the new state plus a trace of
  the store operations it issued, in order.
-/
import Mathlib

/-- Convenience: the character list of a string literal. -/
def chars (s : String) : List Char := s.toList

instance {ε α : Type} [DecidableEq ε] [DecidableEq α] : DecidableEq (Except ε α) :=
  fun x y =>
    match x, y with
    | Except.ok a, Except.ok b =>
      if h : a = b then Decidable.isTrue (by rw [h])
      else Decidable.isFalse (fun he => h (Except.ok.inj he))
    | Except.error a, Except.error b =>
      if h : a = b then Decidable.isTrue (by rw [h])
      else Decidable.isFalse (fun he => h (Except.error.inj he))
    | Except.ok _, Except.error _ => Decidable.isFalse (fun he => Except.noConfusion he)
    | Except.error _, Except.ok _ => Decidable.isFalse (fun he => Except.noConfusion he)

/-- Python's whitespace test (`str.strip`, regex `\s`), ASCII range. -/
def pyIsSpace (c : Char) : Bool :=
  c = ' ' || c = '\t' || c = '\n' || c = '\r' || c = '\x0b' || c = '\x0c'

/-- Python `str.strip()`: drop leading and trailing whitespace. -/
def pyStrip (s : List Char) : List Char :=
  ((s.dropWhile pyIsSpace).reverse.dropWhile pyIsSpace).reverse

/-! ## text_processor.chunk_text -/

/-- `text.replace('\r', '')` from `chunk_text` (text_processor.py line 42):
removing every occurrence of a single character is a filter. -/
def cleanText (text : List Char) : List Char := text.filter (fun c => c ≠ '\r')

/-- The loop `for i in range(0, len(text), step): chunk = text[i:i+chunk_size]; if chunk: ...`
of `chunk_text` (text_processor.py lines 45-49), for positive step `stepPred + 1`.
`fuel` is an upper bound on the number of iterations (each iteration consumes at
least one character); callers pass `t.length + 1`. -/
def slidingChunksF : Nat → Nat → Nat → List Char → List (List Char)
  | 0, _, _, _ => []
  | fuel+1, chunkSize, stepPred, t =>
    match t with
    | [] => []
    | c :: rest =>
      let ch := (c :: rest).take chunkSize
      let tail := slidingChunksF fuel chunkSize stepPred (rest.drop stepPred)
      if ch.isEmpty then tail else ch :: tail

/-- `chunk_text(text, chunk_size, overlap)` (text_processor.py lines 26-51).
`range(0, n, 0)` raises `ValueError`, a negative step yields an empty range. -/
def chunk_text (text : List Char) (chunkSize overlap : Nat) :
    Except String (List (List Char)) :=
  if text.isEmpty then .ok []
  else
    let t := cleanText text
    if chunkSize = overlap then .error "range() arg 3 must not be zero"
    else if chunkSize < overlap then .ok []
    else .ok (slidingChunksF (t.length + 1) chunkSize (chunkSize - overlap - 1) t)

theorem slidingChunksF_mem_length_le (fuel chunkSize stepPred : Nat) :
    ∀ (t : List Char), ∀ c ∈ slidingChunksF fuel chunkSize stepPred t,
      c.length ≤ chunkSize := by
  induction fuel with
  | zero => intro t c hc; simp [slidingChunksF] at hc
  | succ fuel ih =>
    intro t c hc
    match t with
    | [] => simp [slidingChunksF] at hc
    | x :: rest =>
      simp only [slidingChunksF] at hc
      by_cases he : ((x :: rest).take chunkSize).isEmpty = true
      · rw [if_pos he] at hc
        exact ih _ c hc
      · rw [if_neg he] at hc
        rcases List.mem_cons.mp hc with h | h
        · subst h; simp
        · exact ih _ c h

theorem slidingChunksF_mem_ne_nil (fuel chunkSize stepPred : Nat) :
    ∀ (t : List Char), ∀ c ∈ slidingChunksF fuel chunkSize stepPred t,
      c ≠ [] := by
  induction fuel with
  | zero => intro t c hc; simp [slidingChunksF] at hc
  | succ fuel ih =>
    intro t c hc
    match t with
    | [] => simp [slidingChunksF] at hc
    | x :: rest =>
      simp only [slidingChunksF] at hc
      by_cases he : ((x :: rest).take chunkSize).isEmpty = true
      · rw [if_pos he] at hc
        exact ih _ c hc
      · rw [if_neg he] at hc
        rcases List.mem_cons.mp hc with h | h
        · subst h
          intro hnil
          rw [hnil] at he
          simp at he
        · exact ih _ c h

theorem slidingChunksF_get (chunkSize stepPred : Nat) (hcs : 0 < chunkSize) :
    ∀ (fuel : Nat) (t : List Char), t.length < fuel →
      ∀ (i : Nat), i < (slidingChunksF fuel chunkSize stepPred t).length →
        (slidingChunksF fuel chunkSize stepPred t)[i]? =
          some ((t.drop (i * (stepPred + 1))).take chunkSize) := by
  intro fuel
  induction fuel with
  | zero => intro t ht; omega
  | succ fuel ih =>
    intro t ht i h
    match t with
    | [] => simp [slidingChunksF] at h
    | x :: rest =>
      have hne : ¬ ((x :: rest).take chunkSize).isEmpty = true := by
        simp [List.isEmpty_iff]
        omega
      simp only [slidingChunksF] at h ⊢
      rw [if_neg hne] at h ⊢
      match i with
      | 0 => simp
      | i+1 =>
        have hlen : (rest.drop stepPred).length < fuel := by
          simp only [List.length_cons] at ht
          have := List.length_drop stepPred rest
          omega
        have h' : i < (slidingChunksF fuel chunkSize stepPred (rest.drop stepPred)).length := by
          simpa using h
        simp only [List.getElem?_cons_succ]
        rw [ih (rest.drop stepPred) hlen i h']
        rw [List.drop_drop]
        have harith : (i + 1) * (stepPred + 1) = (stepPred + i * (stepPred + 1)) + 1 := by ring
        rw [harith, List.drop_succ_cons]

theorem slidingChunksF_flatten (chunkSize : Nat) (hcs : 0 < chunkSize) :
    ∀ (fuel : Nat) (t : List Char), t.length < fuel →
      (slidingChunksF fuel chunkSize (chunkSize - 1) t).flatten = t := by
  intro fuel
  induction fuel with
  | zero => intro t ht; omega
  | succ fuel ih =>
    intro t ht
    match t with
    | [] => simp [slidingChunksF]
    | x :: rest =>
      have hne : ¬ ((x :: rest).take chunkSize).isEmpty = true := by
        simp [List.isEmpty_iff]
        omega
      simp only [slidingChunksF]
      rw [if_neg hne]
      have hdrop : rest.drop (chunkSize - 1) = (x :: rest).drop chunkSize := by
        have : chunkSize = (chunkSize - 1) + 1 := by omega
        rw [this]
        rfl
      have hlen : (rest.drop (chunkSize - 1)).length < fuel := by
        simp only [List.length_cons] at ht
        have := List.length_drop (chunkSize - 1) rest
        omega
      rw [List.flatten_cons, ih _ hlen, hdrop, List.take_append_drop]

/-- C2, counterexample to the claim as stated: `chunk_text` first removes every
carriage return (`text.replace('\r', '')`, text_processor.py line 42), so for
`overlap = 0` the concatenation of the chunks reconstructs the cleaned text,
not the original text: on `"\ra"` with `chunk_size=4, overlap=0` the chunks
concatenate to `"a" ≠ "\ra"`. -/
theorem C2_counterexample :
    chunk_text (chars "\ra") 4 0 = Except.ok [chars "a"] ∧
      List.flatten [chars "a"] ≠ chars "\ra" := by
  constructor
  · decide
  · decide

/-- C2 (amended): for `0 < chunk_size` and `overlap < chunk_size`,
`chunk_text(text, chunk_size, overlap)` succeeds and returns a fixed-width
sliding window with step `chunk_size - overlap` over the text with carriage
returns removed; every chunk is non-empty of length `≤ chunk_size`; empty
input yields the empty list; and for `overlap = 0` the concatenation of all
chunks reconstructs the carriage-return-cleaned text exactly (hence the
original text exactly whenever it contains no `'\r'`). -/
theorem C2_fixed_window (text : List Char) (chunkSize overlap : Nat)
    (hcs : 0 < chunkSize) (hov : overlap < chunkSize) :
    ∃ chunks, chunk_text text chunkSize overlap = Except.ok chunks ∧
      (∀ c ∈ chunks, c.length ≤ chunkSize ∧ c ≠ []) ∧
      (∀ i, i < chunks.length →
        chunks[i]? = some (((cleanText text).drop (i * (chunkSize - overlap))).take chunkSize)) ∧
      (text = [] → chunks = []) ∧
      (overlap = 0 → chunks.flatten = cleanText text) := by
  by_cases hnil : text.isEmpty
  · refine ⟨[], ?_, ?_, ?_, ?_, ?_⟩
    · simp [chunk_text, hnil]
    · intro c hc; simp at hc
    · intro i hi; simp at hi
    · intro _; rfl
    · intro _
      have : text = [] := List.isEmpty_iff.mp hnil
      simp [this, cleanText]
  · have hne : chunkSize ≠ overlap := by omega
    have hlt : ¬ chunkSize < overlap := by omega
    refine ⟨slidingChunksF ((cleanText text).length + 1) chunkSize (chunkSize - overlap - 1)
      (cleanText text), ?_, ?_, ?_, ?_, ?_⟩
    · simp only [chunk_text, hnil, Bool.false_eq_true, if_false]
      rw [if_neg hne, if_neg hlt]
    · intro c hc
      exact ⟨slidingChunksF_mem_length_le _ _ _ _ c hc, slidingChunksF_mem_ne_nil _ _ _ _ c hc⟩
    · intro i hi
      have hstep : (chunkSize - overlap - 1) + 1 = chunkSize - overlap := by omega
      rw [slidingChunksF_get chunkSize (chunkSize - overlap - 1) hcs _ _ (by omega) i hi, hstep]
    · intro h
      simp [h] at hnil
    · intro h0
      subst h0
      have : chunkSize - 0 - 1 = chunkSize - 1 := by omega
      rw [this]
      exact slidingChunksF_flatten chunkSize hcs _ _ (by omega)

/-- C2 witness: the spec's scenario `chunk("AAAABBBBCCCC", 4, 0) = ["AAAA","BBBB","CCCC"]`,
and the amended theorem instantiated there. -/
theorem C2_fixed_window_witness :
    chunk_text (chars "AAAABBBBCCCC") 4 0 =
      Except.ok [chars "AAAA", chars "BBBB", chars "CCCC"] ∧
    ∃ chunks, chunk_text (chars "AAAABBBBCCCC") 4 0 = Except.ok chunks ∧
      (∀ c ∈ chunks, c.length ≤ 4 ∧ c ≠ []) ∧
      (∀ i, i < chunks.length →
        chunks[i]? = some (((cleanText (chars "AAAABBBBCCCC")).drop (i * (4 - 0))).take 4)) ∧
      (chars "AAAABBBBCCCC" = [] → chunks = []) ∧
      (0 = 0 → chunks.flatten = cleanText (chars "AAAABBBBCCCC")) :=
  ⟨by decide, C2_fixed_window (chars "AAAABBBBCCCC") 4 0 (by decide) (by decide)⟩

/-- C10: on non-empty text, `chunk_text` with `overlap = chunk_size` raises
`ValueError` (Python's `range(0, n, 0)`), with `overlap > chunk_size` returns
the empty list (negative range step), and with `overlap < chunk_size` it
produces a result normally. -/
theorem C10_overlap_precondition (text : List Char) (chunkSize overlap : Nat)
    (hne : text ≠ []) :
    (overlap = chunkSize →
      chunk_text text chunkSize overlap = Except.error "range() arg 3 must not be zero") ∧
    (chunkSize < overlap → chunk_text text chunkSize overlap = Except.ok []) ∧
    (overlap < chunkSize → ∃ chunks, chunk_text text chunkSize overlap = Except.ok chunks) := by
  have hempty : text.isEmpty = false := by
    simp [List.isEmpty_iff, hne]
  refine ⟨?_, ?_, ?_⟩
  · intro h
    subst h
    simp [chunk_text, hempty]
  · intro h
    have h1 : chunkSize ≠ overlap := by omega
    simp only [chunk_text, hempty, Bool.false_eq_true, if_false]
    rw [if_neg h1, if_pos h]
  · intro h
    have h1 : chunkSize ≠ overlap := by omega
    have h2 : ¬ chunkSize < overlap := by omega
    refine ⟨slidingChunksF ((cleanText text).length + 1) chunkSize
      (chunkSize - overlap - 1) (cleanText text), ?_⟩
    simp only [chunk_text, hempty, Bool.false_eq_true, if_false]
    rw [if_neg h1, if_neg h2]

/-- C10 witness: concrete evaluations of all three regimes on `"ab"`. -/
theorem C10_overlap_precondition_witness :
    chunk_text (chars "ab") 3 3 = Except.error "range() arg 3 must not be zero" ∧
    chunk_text (chars "ab") 3 4 = Except.ok [] ∧
    chunk_text (chars "ab") 4 3 = Except.ok [chars "ab", chars "b"] :=
  ⟨(C10_overlap_precondition (chars "ab") 3 3 (by decide)).1 rfl,
   (C10_overlap_precondition (chars "ab") 3 4 (by decide)).2.1 (by decide),
   by decide⟩

/-! ## section_aware_chunking.extract_sections

The header pattern is `^(#{1,3}\s+.+)$` with `re.MULTILINE`.  A match starts at
a line start: 1-3 `#` characters (a longer run cannot match), then `\s+` (which
may greedily cross a newline), then `.+` up to the next newline or the end,
where `$` holds.  `re.split` keeps the captured headers, and the concatenation
of all returned parts is the original string. -/

/-- Length of the longest prefix of `s` whose characters satisfy `p`. -/
def countLeading (p : Char → Bool) : List Char → Nat
  | [] => 0
  | c :: rest => if p c then countLeading p rest + 1 else 0

/-- Backtracking of `\s+` against the following `.+`: the largest `m` with
`1 ≤ m ≤ r` such that the character of `rest` at index `m` exists and is not a
newline (positions `0..m-1` are whitespace because `m ≤ r`, the leading
whitespace run length). -/
def largestM (rest : List Char) (r : Nat) : Option Nat :=
  let cands := (List.range (r + 1)).filter
    (fun m => decide (1 ≤ m) && decide (rest.getD m '\n' ≠ '\n'))
  match cands with
  | [] => none
  | _ :: _ => some (cands.foldr Nat.max 0)

/-- Attempt to match `#{1,3}\s+.+$` at the start of `s` (which the callers
guarantee is a line start); returns the length of the match. -/
def matchHeader (s : List Char) : Option Nat :=
  let h := countLeading (fun c => c = '#') s
  if 1 ≤ h ∧ h ≤ 3 then
    let rest := s.drop h
    let r := countLeading pyIsSpace rest
    match largestM rest r with
    | none => none
    | some m =>
      let t := countLeading (fun c => c ≠ '\n') (rest.drop m)
      some (h + m + t)
  else none

/-- `re.split(header_pattern, text, flags=re.MULTILINE)` (section_aware_chunking.py
line 64): scan `text` line start by line start, emitting the pending segment and
the matched header at each match.  `acc` is the reversed pending segment; `fuel`
bounds the number of steps (each consumes at least one character), and on
exhaustion the remainder is emitted as a final segment so that the parts always
concatenate to the original text. -/
def scanPartsF : Nat → List Char → List Char → List (List Char)
  | 0, s, acc => [acc.reverse ++ s]
  | fuel+1, s, acc =>
    match matchHeader s with
    | some L =>
      match s.drop L with
      | [] => [acc.reverse, s.take L, []]
      | c :: rest => acc.reverse :: s.take L :: scanPartsF fuel rest [c]
    | none =>
      match s with
      | [] => [acc.reverse]
      | c :: rest =>
        let line := List.takeWhile (fun ch => ch ≠ '\n') (c :: rest)
        match List.drop line.length (c :: rest) with
        | [] => [acc.reverse ++ line]
        | nl :: rest2 => scanPartsF fuel rest2 ((nl :: line.reverse) ++ acc)

/-- `re.split` of the header pattern over `text`, with enough fuel. -/
def reSplitHeaders (text : List Char) : List (List Char) :=
  scanPartsF (text.length + 1) text []

/-- `s.replace(pat, '')` (Python `str.replace`): delete non-overlapping
occurrences of `pat` left to right.  `fuel` bounds the steps; callers pass
`s.length + 1` and `pat` is never empty. -/
def removeAllF : Nat → List Char → List Char → List Char
  | 0, s, _ => s
  | fuel+1, s, pat =>
    match s with
    | [] => []
    | c :: rest =>
      if pat.isPrefixOf (c :: rest) then removeAllF fuel ((c :: rest).drop pat.length) pat
      else c :: removeAllF fuel rest pat

def removeAll (s pat : List Char) : List Char := removeAllF (s.length + 1) s pat

/-- `'[START OF SECTION]'` boundary marker. -/
def startMarker : List Char := chars "[START OF SECTION]"

/-- `'[END OF SECTION]'` boundary marker. -/
def endMarker : List Char := chars "[END OF SECTION]"

/-- `Section` dataclass of section_aware_chunking.py (lines 27-33). -/
structure Section where
  header : List Char
  content : List Char
  start_marker : Bool
  end_marker : Bool
deriving DecidableEq, Repr

/-- Flushing one section in `extract_sections` (lines 77-90): join the pending
content parts with blank lines, record marker presence, strip the markers and
surrounding whitespace. -/
def sectionOfContent (header : List Char) (contentParts : List (List Char)) : Section :=
  let full := List.intercalate (chars "\n\n") contentParts
  { header := header
    content := pyStrip (removeAll (removeAll full startMarker) endMarker)
    start_marker := decide (List.IsInfix startMarker full)
    end_marker := decide (List.IsInfix endMarker full) }

/-- The part-processing loop of `extract_sections` (lines 66-110): strip each
part, skip empty ones, re-classify via `re.match` of the header pattern, and
flush a section whenever a new header begins (and once at the end).  A header
with no accumulated content produces no section. -/
def buildSections : List (List Char) → Option (List Char) → List (List Char) → List Section
  | [], currentHeader, currentContent =>
    match currentHeader with
    | some hdr => if currentContent.isEmpty then [] else [sectionOfContent hdr currentContent]
    | none => []
  | part :: rest, currentHeader, currentContent =>
    let p := pyStrip part
    if p.isEmpty then buildSections rest currentHeader currentContent
    else if (matchHeader p).isSome then
      let flushed :=
        match currentHeader with
        | some hdr => if currentContent.isEmpty then [] else [sectionOfContent hdr currentContent]
        | none => []
      flushed ++ buildSections rest (some p) []
    else
      buildSections rest currentHeader (currentContent ++ [p])

/-- `extract_sections(text)` (section_aware_chunking.py lines 47-112). -/
def extract_sections (text : List Char) : List Section :=
  buildSections (reSplitHeaders text) none []

/-! ## section_aware_chunking: splitting and enrichment -/

/-- Python `s.split(sep)` for a non-empty separator: non-overlapping,
left-to-right.  `cur` is the reversed current piece, `fuel` bounds the steps. -/
def splitSepF : Nat → List Char → List Char → List Char → List (List Char)
  | 0, s, _, cur => [cur.reverse ++ s]
  | fuel+1, s, sep, cur =>
    match s with
    | [] => [cur.reverse]
    | c :: rest =>
      if sep.isPrefixOf (c :: rest) then
        cur.reverse :: splitSepF fuel ((c :: rest).drop sep.length) sep []
      else splitSepF fuel rest sep (c :: cur)

def pySplitSep (s sep : List Char) : List (List Char) := splitSepF (s.length + 1) s sep []

/-- `split_section_at_paragraphs(section, max_chunk_size, min_chunk_size)`
(section_aware_chunking.py lines 115-167; `min_chunk_size` is never read). -/
def split_section_at_paragraphs (sec : Section) (maxChunkSize : Nat) : List (List Char) :=
  let fullText := sec.header ++ chars "\n\n" ++ sec.content
  if fullText.length ≤ maxChunkSize then [fullText]
  else
    let paragraphs := pySplitSep sec.content (chars "\n\n")
    let step := fun (st : List (List Char) × List Char) (para0 : List Char) =>
      let para := pyStrip para0
      if para.isEmpty then st
      else if maxChunkSize < st.2.length + para.length + 2 then
        if sec.header.length + 10 < st.2.length then
          (st.1 ++ [pyStrip st.2], sec.header ++ chars "\n\n" ++ para ++ chars "\n\n")
        else
          (st.1 ++ [pyStrip (st.2 ++ para ++ chars "\n\n")], sec.header ++ chars "\n\n")
      else (st.1, st.2 ++ para ++ chars "\n\n")
    let res := paragraphs.foldl step ([], sec.header ++ chars "\n\n")
    if sec.header.length + 10 < res.2.length then res.1 ++ [pyStrip res.2] else res.1

/-- `extract_section_name(header)` (lines 170-183): strip `^#{1,6}\s+`, take the
part before the first `':'`, strip whitespace. -/
def extract_section_name (header : List Char) : List Char :=
  let h := countLeading (fun c => c = '#') header
  let afterSub :=
    if 1 ≤ h ∧ h ≤ 6 ∧ pyIsSpace (header.getD h 'x') then
      (header.drop h).dropWhile pyIsSpace
    else header
  pyStrip (List.takeWhile (fun c => c ≠ ':') afterSub)

/-- YAML values, as produced by `yaml.safe_load` and consumed by the pydantic
validation (floats and other scalar kinds do not occur in any claim and are not
distinguished from ints by any modelled code path). -/
inductive YVal where
  | str (v : String)
  | int (v : Int)
  | bool (v : Bool)
  | null
  | list (items : List YVal)
  | dict (entries : List (String × YVal))
deriving BEq, Repr

/-- `CaseStudyFrontmatter` (schemas.py lines 40-65). -/
structure CaseStudyFrontmatter where
  title : String
  client : String
  industry : String
  project_type : String
  technologies_used : List String
  key_metrics : Option (List (String × YVal))
  function : Option String
  project_status : Option String
deriving BEq, Repr

/-- The per-chunk metadata dict built in `create_section_aware_chunks`
(lines 239-269): fixed keys, plus the frontmatter fields duplicated when
frontmatter is present (`key_metrics` only when truthy, which the
`Option` inside the frontmatter record already captures). -/
structure ChunkMetadata where
  file_id : String
  file_url : String
  file_title : String
  chunk_index : Nat
  sectionName : List Char
  section_chunk_index : Nat
  total_section_chunks : Nat
  frontmatter : Option CaseStudyFrontmatter
  chunk_role : String
deriving BEq, Repr

/-- `EnrichedChunk` dataclass (lines 36-44). -/
structure EnrichedChunk where
  content : List Char
  metadata : ChunkMetadata
  chunk_index : Nat
  section_name : List Char
  section_chunk_index : Nat
  total_section_chunks : Nat
deriving BEq, Repr

/-- The `chunk_role` assignment (lines 265-269). -/
def chunkRole (sectionChunkIdx totalSectionChunks : Nat) : String :=
  if totalSectionChunks = 1 then "section_complete"
  else "section_part_" ++ (toString (sectionChunkIdx + 1) ++ ("_of_" ++ toString totalSectionChunks))

/-- One `EnrichedChunk` as built in the inner loop (lines 237-279). -/
def mkEnriched (fm : Option CaseStudyFrontmatter) (fid furl ftitle : String)
    (name : List Char) (globalIdx sectionIdx total : Nat) (content : List Char) :
    EnrichedChunk :=
  { content := content
    metadata :=
      { file_id := fid, file_url := furl, file_title := ftitle
        chunk_index := globalIdx, sectionName := name
        section_chunk_index := sectionIdx, total_section_chunks := total
        frontmatter := fm, chunk_role := chunkRole sectionIdx total }
    chunk_index := globalIdx
    section_name := name
    section_chunk_index := sectionIdx
    total_section_chunks := total }

/-- The inner `for section_chunk_idx, chunk_text in enumerate(section_chunks)`
loop: `g` is the running global index, `si` the index within the section. -/
def enrichChunksOfSection (fm : Option CaseStudyFrontmatter) (fid furl ftitle : String)
    (name : List Char) (total : Nat) :
    List (List Char) → Nat → Nat → List EnrichedChunk
  | [], _, _ => []
  | ct :: rest, g, si =>
    mkEnriched fm fid furl ftitle name g si total ct ::
      enrichChunksOfSection fm fid furl ftitle name total rest (g + 1) (si + 1)

/-- The outer `for section in sections` loop of `create_section_aware_chunks`
(lines 230-281), threading the global chunk index. -/
def enrichLoop (fm : Option CaseStudyFrontmatter) (fid furl ftitle : String)
    (maxChunkSize : Nat) : List Section → Nat → List EnrichedChunk
  | [], _ => []
  | sec :: rest, g =>
    let name := extract_section_name sec.header
    let scs := split_section_at_paragraphs sec maxChunkSize
    enrichChunksOfSection fm fid furl ftitle name scs.length scs g 0 ++
      enrichLoop fm fid furl ftitle maxChunkSize rest (g + scs.length)

/-- `create_section_aware_chunks(text, frontmatter, max_chunk_size, file_id,
file_url, file_title)` (lines 186-283), including the fallback single
`# Document` section when no sections are found. -/
def create_section_aware_chunks (text : List Char) (fm : Option CaseStudyFrontmatter)
    (maxChunkSize : Nat) (fid furl ftitle : String) : List EnrichedChunk :=
  let sections0 := extract_sections text
  let sections :=
    if sections0.isEmpty then
      [{ header := chars "# Document", content := text,
         start_marker := false, end_marker := false }]
    else sections0
  enrichLoop fm fid furl ftitle maxChunkSize sections 0

/-! ## C3: chunk index density and role labels -/

theorem enrichChunksOfSection_getElem (fm : Option CaseStudyFrontmatter)
    (fid furl ftitle : String) (name : List Char) (total : Nat) :
    ∀ (cts : List (List Char)) (g si i : Nat),
      (enrichChunksOfSection fm fid furl ftitle name total cts g si)[i]? =
        cts[i]?.map (fun ct => mkEnriched fm fid furl ftitle name (g + i) (si + i) total ct) := by
  intro cts
  induction cts with
  | nil => intro g si i; simp [enrichChunksOfSection]
  | cons ct rest ih =>
    intro g si i
    match i with
    | 0 => simp [enrichChunksOfSection]
    | i+1 =>
      simp only [enrichChunksOfSection, List.getElem?_cons_succ]
      have h1 : g + 1 + i = g + (i + 1) := by omega
      have h2 : si + 1 + i = si + (i + 1) := by omega
      rw [ih (g+1) (si+1) i, h1, h2]

theorem enrichChunksOfSection_length (fm : Option CaseStudyFrontmatter)
    (fid furl ftitle : String) (name : List Char) (total : Nat) :
    ∀ (cts : List (List Char)) (g si : Nat),
      (enrichChunksOfSection fm fid furl ftitle name total cts g si).length = cts.length := by
  intro cts
  induction cts with
  | nil => intro g si; rfl
  | cons ct rest ih =>
    intro g si
    simp [enrichChunksOfSection, ih (g+1) (si+1)]

theorem enrichLoop_props (fm : Option CaseStudyFrontmatter) (fid furl ftitle : String)
    (maxChunkSize : Nat) :
    ∀ (secs : List Section) (g i : Nat) (c : EnrichedChunk),
      (enrichLoop fm fid furl ftitle maxChunkSize secs g)[i]? = some c →
        c.chunk_index = g + i ∧ c.metadata.chunk_index = g + i ∧
        c.metadata.section_chunk_index = c.section_chunk_index ∧
        c.metadata.sectionName = c.section_name ∧
        c.metadata.total_section_chunks = c.total_section_chunks ∧
        c.section_chunk_index < c.total_section_chunks ∧
        c.metadata.chunk_role = chunkRole c.section_chunk_index c.total_section_chunks := by
  intro secs
  induction secs with
  | nil => intro g i c hc; simp [enrichLoop] at hc
  | cons sec rest ih =>
    intro g i c hc
    simp only [enrichLoop] at hc
    set scs := split_section_at_paragraphs sec maxChunkSize with hscs
    by_cases hi : i < (enrichChunksOfSection fm fid furl ftitle
        (extract_section_name sec.header) scs.length scs g 0).length
    · rw [List.getElem?_append_left hi] at hc
      rw [enrichChunksOfSection_getElem] at hc
      have hlen : i < scs.length := by
        rw [enrichChunksOfSection_length] at hi
        exact hi
      match hct : scs[i]? with
      | none => rw [hct] at hc; simp at hc
      | some ct =>
        rw [hct] at hc
        simp only [Option.map_some'] at hc
        cases hc
        refine ⟨rfl, rfl, rfl, rfl, rfl, ?_, rfl⟩
        show 0 + i < scs.length
        omega
    · rw [List.getElem?_append_right (by omega)] at hc
      rw [enrichChunksOfSection_length] at hi
      have hilen : (enrichChunksOfSection fm fid furl ftitle
          (extract_section_name sec.header) scs.length scs g 0).length = scs.length :=
        enrichChunksOfSection_length _ _ _ _ _ _ _ _ _
      rw [hilen] at hc
      have := ih (g + scs.length) (i - scs.length) c hc
      have harith : g + scs.length + (i - scs.length) = g + i := by omega
      rw [harith] at this
      exact this

/-- The `section_part_i_of_n` label is never the `section_complete` label. -/
theorem chunkRole_eq_complete_iff (si total : Nat) :
    chunkRole si total = "section_complete" ↔ total = 1 := by
  constructor
  · intro he
    by_contra h
    unfold chunkRole at he
    rw [if_neg h] at he
    have hd := congrArg (fun s => s.data.take 9) he
    simp only [String.data_append] at hd
    rw [List.take_append_of_le_length (by decide)] at hd
    revert hd
    decide
  · intro h
    subst h
    rfl

/-- C3: for every input text, frontmatter, and max chunk size, the chunks
returned by `create_section_aware_chunks` carry `chunk_index = i` at position
`i` (dense, zero-based, strictly increasing), both as the `EnrichedChunk` field
and inside the metadata; the metadata's `section`, `section_chunk_index` and
`total_section_chunks` agree with the chunk's fields, the per-section index is
below the section's chunk count, and the `chunk_role` is `"section_complete"`
exactly when the chunk's section produced a single chunk, and
`"section_part_{i+1}_of_{n}"` (1-based index `i+1`, section chunk count `n`)
otherwise. -/
theorem C3_chunk_index_density (text : List Char) (fm : Option CaseStudyFrontmatter)
    (maxChunkSize : Nat) (fid furl ftitle : String) (i : Nat) (c : EnrichedChunk)
    (hc : (create_section_aware_chunks text fm maxChunkSize fid furl ftitle)[i]? = some c) :
    c.chunk_index = i ∧ c.metadata.chunk_index = i ∧
    c.metadata.section_chunk_index = c.section_chunk_index ∧
    c.metadata.sectionName = c.section_name ∧
    c.metadata.total_section_chunks = c.total_section_chunks ∧
    c.section_chunk_index < c.total_section_chunks ∧
    c.metadata.chunk_role = chunkRole c.section_chunk_index c.total_section_chunks ∧
    (c.metadata.chunk_role = "section_complete" ↔ c.total_section_chunks = 1) := by
  unfold create_section_aware_chunks at hc
  have h := enrichLoop_props fm fid furl ftitle maxChunkSize _ 0 i c hc
  simp only [Nat.zero_add] at h
  obtain ⟨h1, h2, h3, h4, h5, h6, h7⟩ := h
  refine ⟨h1, h2, h3, h4, h5, h6, h7, ?_⟩
  rw [h7]
  exact chunkRole_eq_complete_iff _ _

/-- C3 witness: the theorem instantiated on the single chunk of `"hello"`. -/
theorem C3_chunk_index_density_witness :
    ∃ c, (create_section_aware_chunks (chars "hello") none 1500 "f" "u" "t")[0]? = some c ∧
      (c.chunk_index = 0 ∧ c.metadata.chunk_index = 0 ∧
       c.metadata.section_chunk_index = c.section_chunk_index ∧
       c.metadata.sectionName = c.section_name ∧
       c.metadata.total_section_chunks = c.total_section_chunks ∧
       c.section_chunk_index < c.total_section_chunks ∧
       c.metadata.chunk_role = chunkRole c.section_chunk_index c.total_section_chunks ∧
       (c.metadata.chunk_role = "section_complete" ↔ c.total_section_chunks = 1)) :=
  ⟨_, rfl, C3_chunk_index_density (chars "hello") none 1500 "f" "u" "t" 0 _ rfl⟩

/-! ## drive_watcher.check_for_deleted_files (C7) -/

/-- Outcome of the per-id existence check
`self.service.files().get(fileId=..., fields="trashed,name").execute()`:
either metadata with the trashed flag, or a raised error with its message. -/
inductive ProbeResult where
  | found (trashed : Bool)
  | err (msg : String)
deriving DecidableEq, Repr

/-- The error test of drive_watcher.py line 350:
`'File not found' in str(e) or '404' in str(e)`. -/
def isNotFoundError (msg : String) : Bool :=
  decide (List.IsInfix (chars "File not found") msg.toList) ||
    decide (List.IsInfix (chars "404") msg.toList)

/-- Whether the loop body of `check_for_deleted_files` appends the id. -/
def reportedDeleted : ProbeResult → Bool
  | ProbeResult.found trashed => trashed
  | ProbeResult.err m => isNotFoundError m

/-- `check_for_deleted_files` (drive_watcher.py lines 317-354): for each known
id, probe the source; append the id if it is trashed, or if the probe raised an
error whose message indicates not-found; swallow any other error. -/
def check_for_deleted_files (known : List String) (probe : String → ProbeResult) :
    List String :=
  match known with
  | [] => []
  | id :: rest =>
    let tail := check_for_deleted_files rest probe
    match probe id with
    | ProbeResult.found trashed => if trashed then id :: tail else tail
    | ProbeResult.err m => if isNotFoundError m then id :: tail else tail

theorem check_for_deleted_files_eq_filter (known : List String)
    (probe : String → ProbeResult) :
    check_for_deleted_files known probe =
      known.filter (fun id => reportedDeleted (probe id)) := by
  induction known with
  | nil => rfl
  | cons id rest ih =>
    simp only [check_for_deleted_files, ih, List.filter_cons]
    match h : probe id with
    | ProbeResult.found trashed =>
      simp [reportedDeleted, h]
    | ProbeResult.err m =>
      simp [reportedDeleted, h]

/-- C7: an id is reported deleted by `check_for_deleted_files` exactly when it
is a known id and its existence probe either found it trashed or raised an
error whose message contains `'File not found'` or `'404'` (the 404-equivalent
test of the source); an id whose probe raised any other error (transient,
500-equivalent) is not reported. -/
theorem C7_deletion_detection (known : List String) (probe : String → ProbeResult)
    (id : String) :
    id ∈ check_for_deleted_files known probe ↔
      id ∈ known ∧ reportedDeleted (probe id) = true := by
  rw [check_for_deleted_files_eq_filter]
  simp [List.mem_filter]

/-! ## async_db_handler.async_retry (C8) -/

/-- One attempt outcome of the wrapped coroutine: a value or a raised
exception's message. -/
def Attempt (α : Type) := Nat → Except String α

/-- The loop of `async_retry` (async_db_handler.py lines 55-67).  Returns
(result, number of invocations of the wrapped function, sleep durations in
seconds).  `result = none` models falling off the loop (only possible when
`max_attempts = 0`, where the wrapper returns `None`); on the last attempt the
exception is re-raised unchanged.  `remaining = maxAttempts - attempt`. -/
def asyncRetryLoop (f : Nat → Except String α) (backoff maxAttempts : Nat) :
    Nat → Nat → Option (Except String α) × Nat × List Nat
  | _, 0 => (none, 0, [])
  | attempt, remaining+1 =>
    match f attempt with
    | Except.ok a => (some (Except.ok a), 1, [])
    | Except.error e =>
      if attempt = maxAttempts - 1 then (some (Except.error e), 1, [])
      else
        let rec' := asyncRetryLoop f backoff maxAttempts (attempt + 1) remaining
        (rec'.1, rec'.2.1 + 1, backoff ^ attempt :: rec'.2.2)

/-- `async_retry(max_attempts, backoff_factor)` applied to a function whose
attempt outcomes are `f` (async_db_handler.py lines 47-68). -/
def async_retry (maxAttempts backoff : Nat) (f : Nat → Except String α) :
    Option (Except String α) × Nat × List Nat :=
  asyncRetryLoop f backoff maxAttempts 0 maxAttempts

/-! ## metadata_parser: frontmatter extraction and validation (C4)

`extract_frontmatter` matches `^---\s*\n(.*?)\n---\s*\n(.*)$` with `re.DOTALL`
(`re.match`, so anchored at the start).  Greedy `\s*` before each required
newline backtracks, the lazy group takes the earliest closing delimiter that
can complete the match.  `yaml.safe_load` is an oracle parameter producing a
`YVal` or a `YAMLError`. -/

/-- Greedy choice for a `\s*\n` occurrence at the start of `tailAfter`: the
largest whitespace-prefix position holding a newline. -/
def wChoice (tailAfter : List Char) : Option Nat :=
  let w := countLeading pyIsSpace tailAfter
  let cands := (List.range (w + 1)).filter (fun k => tailAfter.getD k 'x' = '\n')
  match cands with
  | [] => none
  | _ :: _ => some (cands.foldr Nat.max 0)

/-- Whether `\n---\s*\n` matches at index `e` of `rest`. -/
def isTermAt (rest : List Char) (e : Nat) : Bool :=
  decide (rest.getD e 'x' = '\n') && (chars "---").isPrefixOf (rest.drop (e + 1)) &&
    (wChoice (rest.drop (e + 4))).isSome

/-- The earliest closing-delimiter position `e ≥ p` (the lazy `(.*?)`). -/
def firstTermFrom (rest : List Char) (p : Nat) : Option Nat :=
  ((List.range (rest.length + 1)).filter (fun e => decide (p ≤ e) && isTermAt rest e)).head?

/-- The regex match of `extract_frontmatter` (metadata_parser.py lines 39-40):
`some (frontmatter_text, body)` on a match, `none` otherwise. -/
def fmSplit (content : List Char) : Option (List Char × List Char) :=
  if (chars "---").isPrefixOf content then
    let rest := content.drop 3
    let wsr := countLeading pyIsSpace rest
    let js := (List.range (wsr + 1)).filter
      (fun j => decide (rest.getD j 'x' = '\n') && (firstTermFrom rest (j + 1)).isSome)
    match js with
    | [] => none
    | _ :: _ =>
      let j := js.foldr Nat.max 0
      match firstTermFrom rest (j + 1) with
      | none => none
      | some e =>
        let fmText := (rest.drop (j + 1)).take (e - (j + 1))
        let tailAfter := rest.drop (e + 4)
        match wChoice tailAfter with
        | none => none
        | some w => some (fmText, tailAfter.drop (w + 1))
  else none

/-- Python truthiness of a YAML value (`frontmatter or {}`, `if not frontmatter`). -/
def pyTruthy : YVal → Bool
  | YVal.str v => decide (v ≠ "")
  | YVal.int v => decide (v ≠ 0)
  | YVal.bool b => b
  | YVal.null => false
  | YVal.list l => !l.isEmpty
  | YVal.dict d => !d.isEmpty

/-- `extract_frontmatter(content)` (metadata_parser.py lines 18-53): on no
match or a YAML error, `({}, content)`; on a match, the parsed value (with
`frontmatter or {}` collapsing falsy values) and the body. -/
def extract_frontmatter (yaml : List Char → Except Unit YVal) (content : List Char) :
    YVal × List Char :=
  match fmSplit content with
  | none => (YVal.dict [], content)
  | some (fmText, body) =>
    match yaml fmText with
    | Except.error _ => (YVal.dict [], content)
    | Except.ok v => (if pyTruthy v then v else YVal.dict [], body)

/-- First-association lookup in a parsed YAML mapping. -/
def ylookup (d : List (String × YVal)) (k : String) : Option YVal :=
  (d.find? (fun e => e.1 == k)).map (fun e => e.2)

/-- A required pydantic `str` field: present and a string. -/
def reqStr (d : List (String × YVal)) (k : String) : Option String :=
  match ylookup d k with
  | some (YVal.str s) => some s
  | _ => none

/-- An optional pydantic `str` field: absent or explicit null give `some none`,
a string gives `some (some s)`, anything else fails validation. -/
def optStr (d : List (String × YVal)) (k : String) : Option (Option String) :=
  match ylookup d k with
  | none => some none
  | some YVal.null => some none
  | some (YVal.str s) => some (some s)
  | some _ => none

/-- `technologies_used: List[str]` with an empty-list default. -/
def listStrField (d : List (String × YVal)) (k : String) : Option (List String) :=
  match ylookup d k with
  | none => some []
  | some (YVal.list items) =>
    items.foldr (fun it acc =>
      match it, acc with
      | YVal.str s, some l => some (s :: l)
      | _, _ => none) (some [])
  | some _ => none

/-- `key_metrics: Optional[Dict[str, Any]]`. -/
def optDictField (d : List (String × YVal)) (k : String) :
    Option (Option (List (String × YVal))) :=
  match ylookup d k with
  | none => some none
  | some YVal.null => some none
  | some (YVal.dict entries) => some (some entries)
  | some _ => none

/-- Pydantic validation of the `CaseStudyFrontmatter` model (schemas.py lines
40-65) on a parsed mapping: required string fields `title, client, industry,
project_type`; optional `technologies_used, key_metrics, function,
project_status`; extra keys ignored. -/
def validateFields (d : List (String × YVal)) : Option CaseStudyFrontmatter :=
  (reqStr d "title").bind fun t =>
  (reqStr d "client").bind fun c =>
  (reqStr d "industry").bind fun ind =>
  (reqStr d "project_type").bind fun pt =>
  (listStrField d "technologies_used").bind fun tech =>
  (optDictField d "key_metrics").bind fun km =>
  (optStr d "function").bind fun fn =>
  (optStr d "project_status").bind fun ps =>
  some { title := t, client := c, industry := ind, project_type := pt
         technologies_used := tech, key_metrics := km
         function := fn, project_status := ps }

/-- `validate_frontmatter(frontmatter)` (metadata_parser.py lines 56-75):
falsy input gives `None`; a mapping is validated (a `ValidationError` is
caught and gives `None`); a truthy non-mapping raises `TypeError`
(`CaseStudyFrontmatter(**frontmatter)` with a non-mapping), which the source
does not catch. -/
def validate_frontmatter (v : YVal) : Except Unit (Option CaseStudyFrontmatter) :=
  if pyTruthy v then
    match v with
    | YVal.dict d => Except.ok (validateFields d)
    | _ => Except.error ()
  else Except.ok none

/-- `parse_case_study(file_content, file_name)` (metadata_parser.py lines
78-119) on the decoded text (the UTF-8 decode uses `errors='replace'` and
never raises, so the decode `except` branch is dead). -/
def parse_case_study (yaml : List Char → Except Unit YVal) (text : List Char) :
    Except Unit (Option CaseStudyFrontmatter × List Char) :=
  let fmb := extract_frontmatter yaml text
  if pyTruthy fmb.1 then
    match validate_frontmatter fmb.1 with
    | Except.error e => Except.error e
    | Except.ok none => Except.ok (none, text)
    | Except.ok (some cs) => Except.ok (some cs, fmb.2)
  else Except.ok (none, text)

/-! ## C4: frontmatter round-trip -/

theorem validateFields_spec (d : List (String × YVal)) (cs : CaseStudyFrontmatter)
    (h : validateFields d = some cs) :
    reqStr d "title" = some cs.title ∧ reqStr d "client" = some cs.client ∧
    reqStr d "industry" = some cs.industry ∧
    reqStr d "project_type" = some cs.project_type := by
  unfold validateFields at h
  cases h1 : reqStr d "title" <;> rw [h1] at h <;> simp only [Option.bind] at h
  case none => exact absurd h (by simp)
  case some t =>
  cases h2 : reqStr d "client" <;> rw [h2] at h <;> simp only [Option.bind] at h
  case none => exact absurd h (by simp)
  case some c =>
  cases h3 : reqStr d "industry" <;> rw [h3] at h <;> simp only [Option.bind] at h
  case none => exact absurd h (by simp)
  case some ind =>
  cases h4 : reqStr d "project_type" <;> rw [h4] at h <;> simp only [Option.bind] at h
  case none => exact absurd h (by simp)
  case some pt =>
  cases h5 : listStrField d "technologies_used" <;> rw [h5] at h <;>
    simp only [Option.bind] at h
  case none => exact absurd h (by simp)
  case some tech =>
  cases h6 : optDictField d "key_metrics" <;> rw [h6] at h <;> simp only [Option.bind] at h
  case none => exact absurd h (by simp)
  case some km =>
  cases h7 : optStr d "function" <;> rw [h7] at h <;> simp only [Option.bind] at h
  case none => exact absurd h (by simp)
  case some fn =>
  cases h8 : optStr d "project_status" <;> rw [h8] at h <;> simp only [Option.bind] at h
  case none => exact absurd h (by simp)
  case some ps =>
  cases h
  refine ⟨?_, ?_, ?_, ?_⟩ <;> simp [h1, h2, h3, h4]

theorem validateFields_none_of_req (d : List (String × YVal))
    (h : reqStr d "title" = none ∨ reqStr d "client" = none ∨
      reqStr d "industry" = none ∨ reqStr d "project_type" = none) :
    validateFields d = none := by
  unfold validateFields
  rcases h with h | h | h | h
  · rw [h]; rfl
  · cases h1 : reqStr d "title" <;> rw [h] <;> simp
  · cases h1 : reqStr d "title" <;> cases h2 : reqStr d "client" <;> rw [h] <;> simp
  · cases h1 : reqStr d "title" <;> cases h2 : reqStr d "client" <;>
      cases h3 : reqStr d "industry" <;> rw [h] <;> simp

theorem validateFields_nil : validateFields [] = none := by
  rw [validateFields_none_of_req]
  left
  rfl

/-- C4 (amended): for a text whose leading delimiter-bounded header block
matches and parses as a YAML mapping `d`, (a) if pydantic validation succeeds —
the four required fields present as strings and every present optional field
well-typed — then `parse_case_study` returns the validated record, whose
required fields equal the values in `d`, paired with the body after the header;
(b) if a required field is missing or not a string, it returns no metadata and
the entire original text as body, without raising. -/
theorem C4_frontmatter_roundtrip (yaml : List Char → Except Unit YVal)
    (text fmText body : List Char) (d : List (String × YVal))
    (hsplit : fmSplit text = some (fmText, body))
    (hyaml : yaml fmText = Except.ok (YVal.dict d)) :
    (∀ cs, validateFields d = some cs →
      parse_case_study yaml text = Except.ok (some cs, body) ∧
      reqStr d "title" = some cs.title ∧ reqStr d "client" = some cs.client ∧
      reqStr d "industry" = some cs.industry ∧
      reqStr d "project_type" = some cs.project_type) ∧
    ((reqStr d "title" = none ∨ reqStr d "client" = none ∨
      reqStr d "industry" = none ∨ reqStr d "project_type" = none) →
      parse_case_study yaml text = Except.ok (none, text)) := by
  have hef : extract_frontmatter yaml text =
      (if pyTruthy (YVal.dict d) then YVal.dict d else YVal.dict [], body) := by
    unfold extract_frontmatter
    rw [hsplit]
    dsimp only
    rw [hyaml]
  constructor
  · intro cs hcs
    have hdne : d ≠ [] := by
      intro hnil
      rw [hnil, validateFields_nil] at hcs
      cases hcs
    have htruthy : pyTruthy (YVal.dict d) = true := by
      simp [pyTruthy, List.isEmpty_iff, hdne]
    refine ⟨?_, validateFields_spec d cs hcs⟩
    unfold parse_case_study validate_frontmatter
    rw [hef]
    simp [htruthy, hcs]
  · intro hreq
    unfold parse_case_study validate_frontmatter
    rw [hef]
    by_cases hd : d = []
    · subst hd
      simp [pyTruthy]
    · have htruthy : pyTruthy (YVal.dict d) = true := by
        simp [pyTruthy, List.isEmpty_iff, hd]
      simp [htruthy, validateFields_none_of_req d hreq]

/-- A parsed header whose four required fields are present and well-typed but
whose optional `technologies_used` is mistyped (an int, not a list of str). -/
def dCex : List (String × YVal) :=
  [("title", YVal.str "T"), ("client", YVal.str "C"), ("industry", YVal.str "I"),
   ("project_type", YVal.str "P"), ("technologies_used", YVal.int 5)]

def yamlCex : List Char → Except Unit YVal := fun _ => Except.ok (YVal.dict dCex)

/-- C4, counterexample to the claim as stated: a markdown file whose header
block parses as YAML with all four required fields present and well-typed
still yields no metadata when a present *optional* field is mistyped
(`technologies_used: 5` fails pydantic validation), and the entire original
text is returned as body — the claim's success case does not hold for it. -/
theorem C4_counterexample :
    fmSplit (chars "---\nx\n---\nBODY") = some (chars "x", chars "BODY") ∧
    yamlCex (chars "x") = Except.ok (YVal.dict dCex) ∧
    reqStr dCex "title" = some "T" ∧ reqStr dCex "client" = some "C" ∧
    reqStr dCex "industry" = some "I" ∧ reqStr dCex "project_type" = some "P" ∧
    parse_case_study yamlCex (chars "---\nx\n---\nBODY") =
      Except.ok (none, chars "---\nx\n---\nBODY") :=
  ⟨by rfl, by rfl, by rfl, by rfl, by rfl, by rfl, by rfl⟩

def dWit : List (String × YVal) :=
  [("title", YVal.str "T"), ("client", YVal.str "C"), ("industry", YVal.str "I"),
   ("project_type", YVal.str "P")]

def yamlWit : List Char → Except Unit YVal := fun _ => Except.ok (YVal.dict dWit)

def csWit : CaseStudyFrontmatter :=
  { title := "T", client := "C", industry := "I", project_type := "P"
    technologies_used := [], key_metrics := none, function := none, project_status := none }

/-- C4 witness: the amended theorem instantiated on a concrete valid header. -/
theorem C4_frontmatter_roundtrip_witness :
    parse_case_study yamlWit (chars "---\ny\n---\nBody here") =
      Except.ok (some csWit, chars "Body here") ∧
    reqStr dWit "title" = some csWit.title ∧ reqStr dWit "client" = some csWit.client ∧
    reqStr dWit "industry" = some csWit.industry ∧
    reqStr dWit "project_type" = some csWit.project_type :=
  (C4_frontmatter_roundtrip yamlWit (chars "---\ny\n---\nBody here") (chars "y")
    (chars "Body here") dWit (by rfl) (by rfl)).1 csWit (by rfl)

/-! ## C5: section completeness — supporting lemmas -/

theorem countLeading_le_length (p : Char → Bool) :
    ∀ (xs : List Char), countLeading p xs ≤ xs.length := by
  intro xs
  induction xs with
  | nil => simp [countLeading]
  | cons x rest ih =>
    simp only [countLeading, List.length_cons]
    by_cases h : p x
    · rw [if_pos h]; omega
    · rw [if_neg h]; omega

theorem countLeading_append_of_lt (p : Char → Bool) :
    ∀ (xs ys : List Char), countLeading p xs < xs.length →
      countLeading p (xs ++ ys) = countLeading p xs := by
  intro xs
  induction xs with
  | nil => intro ys h; simp [countLeading] at h
  | cons x rest ih =>
    intro ys h
    rw [List.cons_append]
    simp only [countLeading, List.length_cons] at h ⊢
    by_cases hp : p x
    · rw [if_pos hp] at h
      rw [if_pos hp, if_pos hp]
      rw [ih ys (by omega)]
    · rw [if_neg hp, if_neg hp]

theorem countLeading_append_all (p : Char → Bool) :
    ∀ (xs ys : List Char), (∀ x ∈ xs, p x = true) →
      countLeading p (xs ++ ys) = xs.length + countLeading p ys := by
  intro xs
  induction xs with
  | nil => intro ys _; simp
  | cons x rest ih =>
    intro ys h
    rw [List.cons_append]
    simp only [countLeading, List.length_cons]
    rw [if_pos (h x (List.mem_cons_self x rest))]
    rw [ih ys (fun a ha => h a (List.mem_cons_of_mem x ha))]
    omega

theorem countLeading_getD_false (p : Char → Bool) (d : Char) :
    ∀ (xs : List Char), countLeading p xs < xs.length →
      p (xs.getD (countLeading p xs) d) = false := by
  intro xs
  induction xs with
  | nil => intro h; simp at h
  | cons x rest ih =>
    intro h
    simp only [countLeading] at h ⊢
    by_cases hp : p x
    · rw [if_pos hp] at h ⊢
      simp only [List.length_cons] at h
      simpa using ih (by omega)
    · rw [if_neg hp]
      simpa using hp

theorem countLeading_getD_true (p : Char → Bool) (d : Char) :
    ∀ (xs : List Char) (i : Nat), i < countLeading p xs →
      p (xs.getD i d) = true := by
  intro xs
  induction xs with
  | nil => intro i h; simp [countLeading] at h
  | cons x rest ih =>
    intro i h
    simp only [countLeading] at h
    by_cases hp : p x
    · rw [if_pos hp] at h
      match i with
      | 0 => simpa using hp
      | i+1 => simpa using ih i (by omega)
    · rw [if_neg hp] at h
      omega

theorem countLeading_lt_of_exists (p : Char → Bool) :
    ∀ (xs : List Char), (∃ x ∈ xs, p x = false) → countLeading p xs < xs.length := by
  intro xs h
  by_contra hle
  have hall := countLeading_le_length p xs
  have heq : countLeading p xs = xs.length := by omega
  obtain ⟨x, hx, hpx⟩ := h
  obtain ⟨i, hi, hget⟩ := List.mem_iff_getElem.mp hx
  have := countLeading_getD_true p 'x' xs i (by omega)
  rw [List.getD_eq_getElem?_getD] at this
  rw [List.getElem?_eq_getElem hi] at this
  simp at this
  rw [hget] at this
  rw [this] at hpx
  cases hpx

theorem foldr_max_le (b : Nat) : ∀ (l : List Nat), (∀ x ∈ l, x ≤ b) →
    l.foldr Nat.max 0 ≤ b := by
  intro l
  induction l with
  | nil => intro _; simp
  | cons x rest ih =>
    intro h
    simp only [List.foldr_cons]
    have h1 := h x (List.mem_cons_self x rest)
    have h2 := ih (fun a ha => h a (List.mem_cons_of_mem x ha))
    exact Nat.max_le.mpr ⟨h1, h2⟩

theorem le_foldr_max : ∀ (l : List Nat) (x : Nat), x ∈ l → x ≤ l.foldr Nat.max 0 := by
  intro l
  induction l with
  | nil => intro x h; simp at h
  | cons y rest ih =>
    intro x h
    simp only [List.foldr_cons]
    rcases List.mem_cons.mp h with h | h
    · subst h; exact Nat.le_max_left _ _
    · exact le_trans (ih x h) (Nat.le_max_right _ _)

theorem largestM_eq_some (rest : List Char) (r : Nat) (hr : 1 ≤ r)
    (hc : rest.getD r '\n' ≠ '\n') : largestM rest r = some r := by
  unfold largestM
  have hmem : r ∈ (List.range (r + 1)).filter
      (fun m => decide (1 ≤ m) && decide (rest.getD m '\n' ≠ '\n')) := by
    rw [List.mem_filter]
    refine ⟨List.mem_range.mpr (by omega), ?_⟩
    rw [List.getD_eq_getElem?_getD] at hc
    simp [hr, hc]
  match hcand : (List.range (r + 1)).filter
      (fun m => decide (1 ≤ m) && decide (rest.getD m '\n' ≠ '\n')) with
  | [] => rw [hcand] at hmem; simp at hmem
  | c :: cs =>
    rw [hcand] at hmem
    have hle : (c :: cs).foldr Nat.max 0 ≤ r := by
      apply foldr_max_le
      intro x hx
      rw [← hcand] at hx
      have := (List.mem_filter.mp hx).1
      exact Nat.lt_succ_iff.mp (List.mem_range.mp this)
    have hge : r ≤ (c :: cs).foldr Nat.max 0 := le_foldr_max _ r hmem
    simp only []
    congr 1
    omega

theorem largestM_zero (rest : List Char) : largestM rest 0 = none := rfl

/-- Syntactic well-formedness of a rendered header line: 1-3 `#`s, then a
whitespace character, no newline anywhere, and a non-whitespace last
character. -/
def headerOk (h : List Char) : Bool :=
  let k := countLeading (fun c => c = '#') h
  decide (1 ≤ k) && decide (k ≤ 3) && decide (k < h.length) &&
    pyIsSpace (h.getD k 'x') && h.all (fun c => !(c = '\n')) &&
    !(pyIsSpace (h.getLastD 'x'))

/-- A content line that the header regex cannot match at: its leading `#` run
is not of length 1-3, or is not followed (within the line, or by virtue of
ending the line) by whitespace. -/
def contentLineOk (l : List Char) : Bool :=
  let k := countLeading (fun c => c = '#') l
  !(decide (1 ≤ k) && decide (k ≤ 3) &&
    (decide (k = l.length) || pyIsSpace (l.getD k 'x')))

/-- Every line of `c` is a `contentLineOk` line.  `fuel` bounds the recursion;
`linesOk` passes `c.length + 1`. -/
def linesOkF : Nat → List Char → Bool
  | 0, _ => true
  | fuel+1, c =>
    let line := c.takeWhile (fun ch => ch ≠ '\n')
    contentLineOk line &&
      (match c.drop line.length with
       | [] => true
       | _ :: rest2 => linesOkF fuel rest2)

def linesOk (c : List Char) : Bool := linesOkF (c.length + 1) c

/-- Well-formedness of a rendered block content: non-empty, strip-stable, and
all lines are content lines. -/
def contentOk (c : List Char) : Bool :=
  !c.isEmpty && decide (pyStrip c = c) && linesOk c

theorem getLast?_drop_eq (n : Nat) : ∀ (l : List Char), n < l.length →
    (l.drop n).getLast? = l.getLast? := by
  induction n with
  | zero => intro l _; rfl
  | succ n ih =>
    intro l hl
    match l with
    | [] => simp at hl
    | c :: rest =>
      rw [List.drop_succ_cons]
      rw [ih rest (by simpa using hl)]
      match rest with
      | [] => simp at hl
      | d :: rest2 => rw [List.getLast?_cons_cons]

theorem headerOk_spec (h : List Char) (hh : headerOk h = true) :
    1 ≤ countLeading (fun c => c = '#') h ∧ countLeading (fun c => c = '#') h ≤ 3 ∧
    countLeading (fun c => c = '#') h < h.length ∧
    pyIsSpace (h.getD (countLeading (fun c => c = '#') h) 'x') = true ∧
    (∀ c ∈ h, c ≠ '\n') ∧ pyIsSpace (h.getLastD 'x') = false := by
  unfold headerOk at hh
  simp only [Bool.and_eq_true, decide_eq_true_eq, List.all_eq_true,
    Bool.not_eq_true'] at hh
  obtain ⟨⟨⟨⟨⟨hk1, hk3⟩, hklen⟩, hws⟩, hnl⟩, hlast⟩ := hh
  refine ⟨hk1, hk3, hklen, hws, ?_, hlast⟩
  intro c hc
  have := hnl c hc
  simpa using this

theorem matchHeader_append (h : List Char) (hh : headerOk h = true) (t : List Char)
    (ht : t = [] ∨ ∃ t2, t = '\n' :: t2) :
    matchHeader (h ++ t) = some h.length := by
  obtain ⟨hk1, hk3, hklen, hws, hnl, hlast⟩ := headerOk_spec h hh
  set k := countLeading (fun c => c = '#') h with hkdef
  have hs1 : countLeading (fun c => c = '#') (h ++ t) = k :=
    countLeading_append_of_lt _ _ _ hklen
  have hdropk : (h ++ t).drop k = h.drop k ++ t :=
    List.drop_append_of_le_length (by omega)
  have hdne : h.drop k ≠ [] := by
    intro hnil
    have := congrArg List.length hnil
    simp at this
    omega
  have hlastdrop : pyIsSpace ((h.drop k).getLastD 'x') = false := by
    rw [List.getLastD_eq_getLast? _ _, getLast?_drop_eq k h hklen,
      ← List.getLastD_eq_getLast? _ _]
    exact hlast
  have hex : ∃ x ∈ h.drop k, pyIsSpace x = false := by
    refine ⟨(h.drop k).getLast hdne, List.getLast_mem hdne, ?_⟩
    rw [List.getLastD_eq_getLast? _ _, List.getLast?_eq_getLast _ hdne] at hlastdrop
    simpa using hlastdrop
  have hrlt : countLeading pyIsSpace (h.drop k) < (h.drop k).length :=
    countLeading_lt_of_exists _ _ hex
  set r := countLeading pyIsSpace (h.drop k) with hrdef
  have hs2 : countLeading pyIsSpace (h.drop k ++ t) = r :=
    countLeading_append_of_lt _ _ _ hrlt
  have hr0 : (h.drop k).getD 0 'x' = h.getD k 'x' := by
    rw [List.getD_eq_getElem?_getD, List.getD_eq_getElem?_getD, List.getElem?_drop,
      Nat.add_zero]
  have hr1 : 1 ≤ r := by
    rcases List.exists_cons_of_ne_nil hdne with ⟨c, rest, hcons⟩
    have hc : pyIsSpace c = true := by
      have : (h.drop k).getD 0 'x' = c := by rw [hcons]; rfl
      rw [this] at hr0
      rw [← hr0] at hws
      exact hws
    rw [hrdef, hcons]
    simp only [countLeading, hc, if_pos]
    omega
  have hchar : (h.drop k ++ t).getD r '\n' ≠ '\n' := by
    rw [List.getD_append _ _ _ _ hrlt]
    have hf : pyIsSpace ((h.drop k).getD r '\n') = false :=
      countLeading_getD_false _ _ _ hrlt
    intro heq
    rw [heq] at hf
    exact absurd hf (by decide)
  have hlm : largestM (h.drop k ++ t) r = some r := largestM_eq_some _ r hr1 hchar
  have hdropkr : (h.drop k ++ t).drop r = (h.drop k).drop r ++ t :=
    List.drop_append_of_le_length (by omega)
  have hcount : countLeading (fun c => decide (c ≠ '\n')) ((h.drop k).drop r ++ t) =
      ((h.drop k).drop r).length := by
    have hall : ∀ x ∈ (h.drop k).drop r, decide (x ≠ '\n') = true := by
      intro x hx
      have hxh : x ∈ h := List.mem_of_mem_drop (List.mem_of_mem_drop hx)
      simp [hnl x hxh]
    rw [countLeading_append_all _ _ _ hall]
    rcases ht with ht | ⟨t2, ht⟩
    · subst ht; simp [countLeading]
    · subst ht
      simp [countLeading]
  simp only [matchHeader]
  rw [hs1, if_pos ⟨hk1, hk3⟩, hdropk, hs2, hlm]
  dsimp only
  rw [hdropkr, hcount]
  congr 1
  have e5 : ((h.drop k).drop r).length = (h.drop k).length - r := by
    simp
    omega
  have e6 : (h.drop k).length = h.length - k := by
    simp
  omega

theorem countLeading_eq_length_all (p : Char → Bool) (l : List Char)
    (h : countLeading p l = l.length) : ∀ x ∈ l, p x = true := by
  intro x hx
  obtain ⟨i, hi, hget⟩ := List.mem_iff_getElem.mp hx
  have := countLeading_getD_true p 'x' l i (by omega)
  rw [List.getD_eq_getElem?_getD, List.getElem?_eq_getElem hi] at this
  simpa [hget] using this

theorem matchHeader_none_of_contentLine (l : List Char) (hok : contentLineOk l = true)
    (t : List Char) (ht : t = [] ∨ ∃ t2, t = '\n' :: t2) :
    matchHeader (l ++ t) = none := by
  set k := countLeading (fun c => c = '#') l with hkdef
  have hs1 : countLeading (fun c => c = '#') (l ++ t) = k := by
    by_cases hlt : k < l.length
    · exact countLeading_append_of_lt _ _ _ hlt
    · have hkl : k = l.length := by
        have := countLeading_le_length (fun c => decide (c = '#')) l
        omega
      have hall : ∀ x ∈ l, decide (x = '#') = true :=
        countLeading_eq_length_all _ l hkl
      rw [countLeading_append_all _ _ _ hall]
      rcases ht with ht | ⟨t2, ht⟩
      · subst ht; simp [countLeading, hkl]
      · subst ht; simp [countLeading, hkl]
  simp only [contentLineOk, Bool.not_eq_true', Bool.and_eq_false_iff,
    Bool.or_eq_false_iff, decide_eq_false_iff_not] at hok
  simp only [matchHeader]
  rw [hs1]
  by_cases hk13 : 1 ≤ k ∧ k ≤ 3
  · rw [if_pos hk13]
    have hparts : k ≠ l.length ∧ pyIsSpace (l.getD k 'x') = false := by
      rcases hok with hok | hok
      · rcases hok with hok | hok
        · omega
        · omega
      · exact hok
    have hklt : k < l.length := by
      have := countLeading_le_length (fun c => decide (c = '#')) l
      omega
    have hdropk : (l ++ t).drop k = l.drop k ++ t :=
      List.drop_append_of_le_length (by omega)
    have hdne : l.drop k ≠ [] := by
      intro hnil
      have := congrArg List.length hnil
      simp at this
      omega
    have hzero : countLeading pyIsSpace (l.drop k ++ t) = 0 := by
      rcases List.exists_cons_of_ne_nil hdne with ⟨c, rest, hcons⟩
      have hc : pyIsSpace c = false := by
        have h0 : (l.drop k).getD 0 'x' = c := by rw [hcons]; rfl
        have h1 : (l.drop k).getD 0 'x' = l.getD k 'x' := by
          rw [List.getD_eq_getElem?_getD, List.getD_eq_getElem?_getD,
            List.getElem?_drop, Nat.add_zero]
        rw [h0] at h1
        rw [h1]
        exact hparts.2
      rw [hcons, List.cons_append]
      simp [countLeading, hc]
    rw [hdropk, hzero, largestM_zero]
  · rw [if_neg hk13]

theorem scanPartsF_fuel_inv : ∀ (fuel₁ fuel₂ : Nat) (s acc : List Char),
    s.length < fuel₁ → s.length < fuel₂ →
    scanPartsF fuel₁ s acc = scanPartsF fuel₂ s acc := by
  intro fuel₁
  induction fuel₁ with
  | zero => intro fuel₂ s acc h1 _; omega
  | succ fuel₁ ih =>
    intro fuel₂ s acc h1 h2
    match fuel₂ with
    | 0 => omega
    | fuel₂+1 =>
      simp only [scanPartsF]
      cases hmh : matchHeader s with
      | some L =>
        dsimp only
        cases hdr : s.drop L with
        | nil => rfl
        | cons c rest =>
          dsimp only
          have hlen : rest.length < s.length := by
            have h' := congrArg List.length hdr
            rw [List.length_drop] at h'
            simp only [List.length_cons] at h' ⊢
            omega
          rw [ih fuel₂ rest [c] (by omega) (by omega)]
      | none =>
        cases s with
        | nil => rfl
        | cons c rest =>
          dsimp only
          cases hdr : List.drop (List.takeWhile (fun ch => decide (ch ≠ '\n')) (c :: rest)).length
              (c :: rest) with
          | nil => rfl
          | cons nl rest2 =>
            dsimp only
            have hlen : rest2.length < (c :: rest).length := by
              have h' := congrArg List.length hdr
              rw [List.length_drop] at h'
              simp only [List.length_cons] at h' ⊢
              omega
            rw [ih fuel₂ rest2 _ (by omega) (by omega)]

theorem linesOkF_fuel_inv : ∀ (fuel₁ fuel₂ : Nat) (c : List Char),
    c.length < fuel₁ → c.length < fuel₂ →
    linesOkF fuel₁ c = linesOkF fuel₂ c := by
  intro fuel₁
  induction fuel₁ with
  | zero => intro fuel₂ c h1 _; omega
  | succ fuel₁ ih =>
    intro fuel₂ c h1 h2
    match fuel₂ with
    | 0 => omega
    | fuel₂+1 =>
      simp only [linesOkF]
      cases hdr : List.drop (List.takeWhile (fun ch => decide (ch ≠ '\n')) c).length c with
      | nil => rfl
      | cons nl rest2 =>
        dsimp only
        have hlen : rest2.length < c.length := by
          have h' := congrArg List.length hdr
          rw [List.length_drop] at h'
          simp only [List.length_cons] at h'
          omega
        rw [ih fuel₂ rest2 (by omega) (by omega)]

theorem takeWhile_append_stop (p : Char → Bool) :
    ∀ (l : List Char), (∀ x ∈ l, p x = true) → ∀ (q : Char), p q = false →
      ∀ (zs : List Char), List.takeWhile p (l ++ q :: zs) = l := by
  intro l
  induction l with
  | nil =>
    intro _ q hq zs
    simp [List.takeWhile_cons, hq]
  | cons x rest ih =>
    intro h q hq zs
    rw [List.cons_append, List.takeWhile_cons, if_pos (h x (List.mem_cons_self x rest))]
    rw [ih (fun a ha => h a (List.mem_cons_of_mem x ha)) q hq zs]

theorem pyStrip_cons_ws (c : Char) (hc : pyIsSpace c = true) (l : List Char) :
    pyStrip (c :: l) = pyStrip l := by
  unfold pyStrip
  rw [List.dropWhile_cons, if_pos hc]

theorem pyStrip_append_ws (c : Char) (hc : pyIsSpace c = true) (l : List Char) :
    pyStrip (l ++ [c]) = pyStrip l := by
  unfold pyStrip
  rw [List.dropWhile_append]
  by_cases he : (l.dropWhile pyIsSpace).isEmpty
  · rw [if_pos he]
    rw [List.isEmpty_iff] at he
    rw [he]
    simp [List.dropWhile_cons, hc]
  · rw [if_neg he]
    rw [List.reverse_append]
    simp only [List.reverse_cons, List.reverse_nil, List.nil_append, List.singleton_append]
    rw [List.dropWhile_cons, if_pos hc]

theorem pyStrip_pad (x : List Char) :
    pyStrip ('\n' :: (x ++ ['\n'])) = pyStrip x := by
  rw [pyStrip_cons_ws '\n' (by decide), pyStrip_append_ws '\n' (by decide)]

theorem pyStrip_eq_self (l : List Char) (hne : l ≠ [])
    (hh : pyIsSpace (l.getD 0 'x') = false)
    (hl : pyIsSpace (l.getLastD 'x') = false) : pyStrip l = l := by
  unfold pyStrip
  have h1 : l.dropWhile pyIsSpace = l := by
    match l with
    | [] => rfl
    | c :: rest =>
      rw [List.dropWhile_cons, if_neg]
      rw [show (c :: rest).getD 0 'x' = c from rfl] at hh
      simp [hh]
  rw [h1]
  have h2 : l.reverse.dropWhile pyIsSpace = l.reverse := by
    match hr : l.reverse with
    | [] => rfl
    | d :: Y =>
      have hd : l.getLast? = some d := by
        rw [← List.head?_reverse, hr]
        rfl
      have hws : pyIsSpace d = false := by
        rw [List.getLastD_eq_getLast? _ _, hd] at hl
        simpa using hl
      rw [List.dropWhile_cons, if_neg (by simp [hws])]
  rw [h2, List.reverse_reverse]

theorem linesOk_decomp (c : List Char) (h : linesOk c = true) :
    contentLineOk (c.takeWhile (fun ch => decide (ch ≠ '\n'))) = true ∧
    (∀ nl rest2, c.drop (c.takeWhile (fun ch => decide (ch ≠ '\n'))).length = nl :: rest2 →
      linesOk rest2 = true) := by
  unfold linesOk at h
  rw [show c.length + 1 = c.length + 1 from rfl] at h
  simp only [linesOkF, Bool.and_eq_true] at h
  obtain ⟨h1, h2⟩ := h
  refine ⟨h1, ?_⟩
  intro nl rest2 hdr
  rw [hdr] at h2
  have hlen : rest2.length < c.length := by
    have h' := congrArg List.length hdr
    rw [List.length_drop] at h'
    simp only [List.length_cons] at h'
    have hsub : List.Sublist (c.takeWhile (fun ch => decide (ch ≠ '\n'))) c :=
      List.takeWhile_sublist _
    have := List.Sublist.length_le hsub
    omega
  unfold linesOk
  rw [linesOkF_fuel_inv (rest2.length + 1) c.length rest2 (by omega) (by omega)]
  exact h2

theorem dropWhile_eq_drop_length_takeWhile (p : Char → Bool) :
    ∀ (l : List Char), l.dropWhile p = l.drop (l.takeWhile p).length := by
  intro l
  induction l with
  | nil => rfl
  | cons c rest ih =>
    rw [List.dropWhile_cons, List.takeWhile_cons]
    by_cases hp : p c
    · rw [if_pos hp, if_pos hp, List.length_cons, List.drop_succ_cons, ih]
    · rw [if_neg hp, if_neg hp]
      rfl

theorem scanPartsF_step_some (fuel : Nat) (s acc : List Char) (L : Nat)
    (hmh : matchHeader s = some L) :
    scanPartsF (fuel+1) s acc =
      match s.drop L with
      | [] => [acc.reverse, s.take L, []]
      | c :: rest => acc.reverse :: s.take L :: scanPartsF fuel rest [c] := by
  simp only [scanPartsF, hmh]

theorem scanPartsF_step_none (fuel : Nat) (s acc : List Char) (hs : s ≠ [])
    (hmh : matchHeader s = none) :
    scanPartsF (fuel+1) s acc =
      (match s.drop (s.takeWhile (fun ch => decide (ch ≠ '\n'))).length with
       | [] => [acc.reverse ++ s.takeWhile (fun ch => decide (ch ≠ '\n'))]
       | nl :: rest2 =>
         scanPartsF fuel rest2 ((nl :: (s.takeWhile (fun ch => decide (ch ≠ '\n'))).reverse) ++ acc)) := by
  obtain ⟨c, rest, rfl⟩ := List.exists_cons_of_ne_nil hs
  simp only [scanPartsF, hmh]

theorem scan_segment : ∀ (fuel : Nat) (content : List Char), linesOk content = true →
    ∀ (r acc : List Char), content.length + 1 + r.length < fuel →
    scanPartsF fuel (content ++ '\n' :: r) acc =
      scanPartsF (r.length + 1) r ('\n' :: content.reverse ++ acc) := by
  intro fuel
  induction fuel with
  | zero => intro content _ r acc h; omega
  | succ fuel ih =>
    intro content hlines r acc hfuel
    obtain ⟨hline1, hrest⟩ := linesOk_decomp content hlines
    set l := content.takeWhile (fun ch => decide (ch ≠ '\n')) with hldef
    have hallp : ∀ x ∈ l, decide (x ≠ '\n') = true := by
      intro x hx
      rw [hldef] at hx
      have h2 := List.mem_takeWhile_imp hx
      exact h2
    have hsplitc : l ++ content.dropWhile (fun ch => decide (ch ≠ '\n')) = content :=
      List.takeWhile_append_dropWhile _ _
    have hs_ne : content ++ '\n' :: r ≠ [] := by
      intro hnil
      have := congrArg List.length hnil
      simp at this
    cases hdw : content.dropWhile (fun ch => decide (ch ≠ '\n')) with
    | nil =>
      have hcl : content = l := by rw [← hsplitc, hdw, List.append_nil]
      have htw : (content ++ '\n' :: r).takeWhile (fun ch => decide (ch ≠ '\n')) = l := by
        rw [hcl]
        exact takeWhile_append_stop _ l hallp '\n' (by decide) r
      have hmh : matchHeader (content ++ '\n' :: r) = none := by
        rw [hcl]
        exact matchHeader_none_of_contentLine l hline1 _ (Or.inr ⟨r, rfl⟩)
      rw [scanPartsF_step_none fuel _ acc hs_ne hmh, htw]
      have hdrop : (content ++ '\n' :: r).drop l.length = '\n' :: r := by
        rw [hcl]
        exact List.drop_left l ('\n' :: r)
      rw [hdrop]
      dsimp only
      rw [scanPartsF_fuel_inv fuel (r.length + 1) r _ (by omega) (by omega)]
      rw [hcl]
    | cons nl0 c2 =>
      have hnl0 : nl0 = '\n' := by
        have hd := List.head?_dropWhile_not (fun ch => decide (ch ≠ '\n')) content
        rw [hdw] at hd
        simp at hd
        exact hd
      subst hnl0
      have hcl : content = l ++ '\n' :: c2 := by rw [← hsplitc, hdw]
      have hs_eq : content ++ '\n' :: r = l ++ '\n' :: (c2 ++ '\n' :: r) := by
        rw [hcl]
        simp
      have htw : (content ++ '\n' :: r).takeWhile (fun ch => decide (ch ≠ '\n')) = l := by
        rw [hs_eq]
        exact takeWhile_append_stop _ l hallp '\n' (by decide) _
      have hmh : matchHeader (content ++ '\n' :: r) = none := by
        rw [hs_eq]
        exact matchHeader_none_of_contentLine l hline1 _ (Or.inr ⟨_, rfl⟩)
      rw [scanPartsF_step_none fuel _ acc hs_ne hmh, htw]
      have hdrop : (content ++ '\n' :: r).drop l.length = '\n' :: (c2 ++ '\n' :: r) := by
        rw [hs_eq]
        exact List.drop_left l _
      rw [hdrop]
      dsimp only
      have hlinesc2 : linesOk c2 = true := by
        apply hrest '\n' c2
        rw [← dropWhile_eq_drop_length_takeWhile]
        exact hdw
      have hclen : content.length = l.length + 1 + c2.length := by
        rw [hcl]
        simp
        omega
      rw [ih c2 hlinesc2 r (('\n' :: l.reverse) ++ acc) (by omega)]
      congr 1
      rw [hcl]
      simp

/-- A canonical rendered markdown body: each block is a header line followed by
its content, each terminated by a newline. -/
def renderBlocks (blocks : List (List Char × List Char)) : List Char :=
  (blocks.map (fun b => b.1 ++ '\n' :: (b.2 ++ ['\n']))).flatten

/-- The parts `re.split` produces for a canonical rendered body, after the
leading empty part. -/
def partsAux : List (List Char × List Char) → List (List Char)
  | [] => []
  | b :: bs => b.1 :: ('\n' :: (b.2 ++ ['\n'])) :: partsAux bs

theorem scan_render : ∀ (blocks : List (List Char × List Char)),
    (∀ b ∈ blocks, headerOk b.1 = true ∧ linesOk b.2 = true) →
    ∀ (fuel : Nat) (acc : List Char), (renderBlocks blocks).length < fuel →
    scanPartsF fuel (renderBlocks blocks) acc = acc.reverse :: partsAux blocks := by
  intro blocks
  induction blocks with
  | nil =>
    intro _ fuel acc hfuel
    match fuel with
    | 0 => simp [renderBlocks] at hfuel
    | fuel+1 => rfl
  | cons b bs ih =>
    intro hwf fuel acc hfuel
    obtain ⟨hhok, hlok⟩ := hwf b (List.mem_cons_self b bs)
    have hrender : renderBlocks (b :: bs) = b.1 ++ '\n' :: (b.2 ++ '\n' :: renderBlocks bs) := by
      simp [renderBlocks]
    have hmh : matchHeader (renderBlocks (b :: bs)) = some b.1.length := by
      rw [hrender]
      exact matchHeader_append b.1 hhok _ (Or.inr ⟨_, rfl⟩)
    have hk1 := (headerOk_spec b.1 hhok).1
    have hklen := (headerOk_spec b.1 hhok).2.2.1
    have hlen : (renderBlocks (b :: bs)).length =
        b.1.length + 1 + b.2.length + 1 + (renderBlocks bs).length := by
      rw [hrender]
      simp
      omega
    match fuel with
    | 0 => omega
    | fuel+1 =>
      rw [scanPartsF_step_some fuel _ acc _ hmh]
      have hdrop : (renderBlocks (b :: bs)).drop b.1.length =
          '\n' :: (b.2 ++ '\n' :: renderBlocks bs) := by
        rw [hrender]
        exact List.drop_left _ _
      have htake : (renderBlocks (b :: bs)).take b.1.length = b.1 := by
        rw [hrender]
        exact List.take_left _ _
      rw [hdrop, htake]
      dsimp only
      rw [scan_segment fuel b.2 hlok (renderBlocks bs) ['\n'] (by omega)]
      rw [ih (fun x hx => hwf x (List.mem_cons_of_mem _ hx))
        ((renderBlocks bs).length + 1) _ (by omega)]
      simp [partsAux]

theorem intercalate_singleton (sep x : List Char) : List.intercalate sep [x] = x := by
  simp [List.intercalate]

/-- The `Section` that `extract_sections` is expected to produce for a
well-formed rendered block. -/
def expectedSection (b : List Char × List Char) : Section :=
  { header := b.1
    content := pyStrip (removeAll (removeAll b.2 startMarker) endMarker)
    start_marker := decide (List.IsInfix startMarker b.2)
    end_marker := decide (List.IsInfix endMarker b.2) }

theorem sectionOfContent_singleton (hdr c : List Char) :
    sectionOfContent hdr [c] = expectedSection (hdr, c) := by
  unfold sectionOfContent expectedSection
  rw [intercalate_singleton]

theorem contentOk_spec (c : List Char) (h : contentOk c = true) :
    c ≠ [] ∧ pyStrip c = c ∧ linesOk c = true := by
  unfold contentOk at h
  simp only [Bool.and_eq_true, Bool.not_eq_true', decide_eq_true_eq] at h
  refine ⟨?_, h.1.2, h.2⟩
  intro hnil
  rw [hnil] at h
  simp at h

theorem headerOk_pyStrip (h : List Char) (hh : headerOk h = true) : pyStrip h = h := by
  obtain ⟨hk1, _, hklen, _, _, hlast⟩ := headerOk_spec h hh
  apply pyStrip_eq_self h (by intro hnil; rw [hnil] at hklen; simp at hklen) _ hlast
  have := countLeading_getD_true (fun c => decide (c = '#')) 'x' h 0 (by omega)
  simp only [decide_eq_true_eq] at this
  rw [this]
  rfl

theorem headerOk_matchHeader (h : List Char) (hh : headerOk h = true) :
    matchHeader h = some h.length := by
  have := matchHeader_append h hh [] (Or.inl rfl)
  rwa [List.append_nil] at this

theorem contentOk_matchHeader_none (c : List Char) (hc : contentOk c = true) :
    matchHeader c = none := by
  obtain ⟨hne, hstrip, hlines⟩ := contentOk_spec c hc
  obtain ⟨hline1, _⟩ := linesOk_decomp c hlines
  have hsplitc : c.takeWhile (fun ch => decide (ch ≠ '\n')) ++
      c.dropWhile (fun ch => decide (ch ≠ '\n')) = c :=
    List.takeWhile_append_dropWhile _ _
  rw [← hsplitc]
  apply matchHeader_none_of_contentLine _ hline1
  cases hdw : c.dropWhile (fun ch => decide (ch ≠ '\n')) with
  | nil => exact Or.inl rfl
  | cons nl0 c2 =>
    have hnl0 : nl0 = '\n' := by
      have hd := List.head?_dropWhile_not (fun ch => decide (ch ≠ '\n')) c
      rw [hdw] at hd
      simp at hd
      exact hd
    subst hnl0
    exact Or.inr ⟨c2, rfl⟩

theorem buildSections_cons_empty (part : List Char) (rest : List (List Char))
    (curH : Option (List Char)) (curC : List (List Char))
    (hstrip : pyStrip part = []) :
    buildSections (part :: rest) curH curC = buildSections rest curH curC := by
  simp only [buildSections, hstrip]
  rfl

theorem buildSections_cons_header (part : List Char) (rest : List (List Char))
    (curH : Option (List Char)) (curC : List (List Char))
    (hstrip : pyStrip part = part) (hne : part ≠ [])
    (hsome : (matchHeader part).isSome = true) :
    buildSections (part :: rest) curH curC =
      (match curH with
       | some hdr => if curC.isEmpty then [] else [sectionOfContent hdr curC]
       | none => []) ++ buildSections rest (some part) [] := by
  simp only [buildSections, hstrip]
  rw [if_neg (by simp [List.isEmpty_iff, hne]), if_pos hsome]

theorem buildSections_cons_content (part : List Char) (rest : List (List Char))
    (curH : Option (List Char)) (curC : List (List Char)) (c' : List Char)
    (hstrip : pyStrip part = c') (hne : c' ≠ [])
    (hnone : matchHeader c' = none) :
    buildSections (part :: rest) curH curC = buildSections rest curH (curC ++ [c']) := by
  simp only [buildSections, hstrip]
  rw [if_neg (by simp [List.isEmpty_iff, hne]), if_neg (by simp [hnone])]

theorem headerOk_ne_nil (h : List Char) (hh : headerOk h = true) : h ≠ [] := by
  obtain ⟨hk1, _, hklen, _, _, _⟩ := headerOk_spec h hh
  intro hnil
  rw [hnil] at hklen
  simp at hklen

theorem buildSections_partsAux : ∀ (blocks : List (List Char × List Char))
    (hdr c : List Char),
    (∀ b ∈ blocks, headerOk b.1 = true ∧ contentOk b.2 = true) →
    headerOk hdr = true → contentOk c = true →
    buildSections (partsAux blocks) (some hdr) [c] =
      expectedSection (hdr, c) :: blocks.map expectedSection := by
  intro blocks
  induction blocks with
  | nil =>
    intro hdr c _ _ _
    simp only [partsAux, buildSections]
    rw [if_neg (by simp)]
    rw [sectionOfContent_singleton]
    rfl
  | cons b bs ih =>
    intro hdr c hwf hh hc
    obtain ⟨hbh, hbc⟩ := hwf b (List.mem_cons_self b bs)
    rw [show partsAux (b :: bs) = b.1 :: ('\n' :: (b.2 ++ ['\n'])) :: partsAux bs from rfl]
    rw [buildSections_cons_header b.1 _ _ _ (headerOk_pyStrip _ hbh) (headerOk_ne_nil _ hbh)
      (by rw [headerOk_matchHeader _ hbh]; rfl)]
    dsimp only
    rw [if_neg (by simp)]
    rw [sectionOfContent_singleton]
    have hsegstrip : pyStrip ('\n' :: (b.2 ++ ['\n'])) = b.2 := by
      rw [pyStrip_pad]
      exact (contentOk_spec _ hbc).2.1
    rw [buildSections_cons_content _ _ _ _ b.2 hsegstrip (contentOk_spec _ hbc).1
      (contentOk_matchHeader_none _ hbc)]
    rw [List.nil_append]
    rw [ih b.1 b.2 (fun x hx => hwf x (List.mem_cons_of_mem _ hx)) hbh hbc]
    rfl

theorem extract_sections_render (blocks : List (List Char × List Char))
    (hwf : ∀ b ∈ blocks, headerOk b.1 = true ∧ contentOk b.2 = true) :
    extract_sections (renderBlocks blocks) = blocks.map expectedSection := by
  unfold extract_sections reSplitHeaders
  rw [scan_render blocks
    (fun b hb => ⟨(hwf b hb).1, (contentOk_spec _ (hwf b hb).2).2.2⟩) _ [] (by omega)]
  rw [show ([] : List Char).reverse = [] from rfl]
  rw [buildSections_cons_empty [] _ none [] rfl]
  cases blocks with
  | nil => rfl
  | cons b bs =>
    obtain ⟨hbh, hbc⟩ := hwf b (List.mem_cons_self b bs)
    rw [show partsAux (b :: bs) = b.1 :: ('\n' :: (b.2 ++ ['\n'])) :: partsAux bs from rfl]
    rw [buildSections_cons_header b.1 _ _ _ (headerOk_pyStrip _ hbh) (headerOk_ne_nil _ hbh)
      (by rw [headerOk_matchHeader _ hbh]; rfl)]
    dsimp only
    have hsegstrip : pyStrip ('\n' :: (b.2 ++ ['\n'])) = b.2 := by
      rw [pyStrip_pad]
      exact (contentOk_spec _ hbc).2.1
    rw [buildSections_cons_content _ _ _ _ b.2 hsegstrip (contentOk_spec _ hbc).1
      (contentOk_matchHeader_none _ hbc)]
    rw [List.nil_append, List.nil_append]
    rw [buildSections_partsAux bs b.1 b.2 (fun x hx => hwf x (List.mem_cons_of_mem _ hx)) hbh hbc]
    rfl

/-- C5, counterexample to the claim as stated: the body `"hello"` contains no
heading line (its only line does not match the header pattern) and no boundary
marker, so the claim requires the concatenated section contents to reproduce
`"hello"`; but `extract_sections "hello"` is empty — text not preceded by any
heading line is dropped entirely. -/
theorem C5_counterexample :
    matchHeader (chars "hello") = none ∧
    ¬ List.IsInfix startMarker (chars "hello") ∧
    ¬ List.IsInfix endMarker (chars "hello") ∧
    '\n' ∉ chars "hello" ∧
    extract_sections (chars "hello") = [] ∧
    ((extract_sections (chars "hello")).map Section.content).flatten ≠ chars "hello" := by
  refine ⟨by decide, by decide, by decide, by decide, by decide, by decide⟩

/-- C5 (amended): for every canonically rendered markdown body — a sequence of
blocks, each a well-formed heading line (`headerOk`) followed by well-formed
content (`contentOk`: non-empty, whitespace-strip-stable, no header-like
lines) each terminated by a newline — `extract_sections` returns exactly one
`Section` per block, whose content is the block's content with the
`[START OF SECTION]`/`[END OF SECTION]` markers removed and surrounding
whitespace stripped, and whose marker booleans record marker presence.
Consequently the concatenation, in section order, of the contents reproduces
the body minus the heading lines, the block-separating newlines, the boundary
markers, and the whitespace stripped around each de-markered content.  (On
arbitrary bodies the original equality fails: text before the first heading
and stripped whitespace are lost, see the counterexample.) -/
theorem C5_section_completeness (blocks : List (List Char × List Char))
    (hwf : ∀ b ∈ blocks, headerOk b.1 = true ∧ contentOk b.2 = true) :
    extract_sections (renderBlocks blocks) = blocks.map expectedSection ∧
    ((extract_sections (renderBlocks blocks)).map Section.content).flatten =
      (blocks.map (fun b => pyStrip (removeAll (removeAll b.2 startMarker) endMarker))).flatten := by
  have h := extract_sections_render blocks hwf
  refine ⟨h, ?_⟩
  rw [h]
  rw [List.map_map]
  rfl

/-- C5 witness: the amended theorem instantiated on a two-section body with
boundary markers, and the resulting sections evaluated. -/
theorem C5_section_completeness_witness :
    extract_sections (renderBlocks
      [(chars "## Context", chars "[START OF SECTION]\nfoo bar\n[END OF SECTION]"),
       (chars "## Solution", chars "baz")]) =
      [(⟨chars "## Context", chars "foo bar", true, true⟩ : Section),
       (⟨chars "## Solution", chars "baz", false, false⟩ : Section)] ∧
    ((extract_sections (renderBlocks
      [(chars "## Context", chars "[START OF SECTION]\nfoo bar\n[END OF SECTION]"),
       (chars "## Solution", chars "baz")])).map Section.content).flatten =
      ([(chars "## Context", chars "[START OF SECTION]\nfoo bar\n[END OF SECTION]"),
        (chars "## Solution", chars "baz")].map
        (fun b => pyStrip (removeAll (removeAll b.2 startMarker) endMarker))).flatten := by
  have h := C5_section_completeness
    [(chars "## Context", chars "[START OF SECTION]\nfoo bar\n[END OF SECTION]"),
     (chars "## Solution", chars "baz")]
    (by intro b hb; fin_cases hb <;> exact ⟨by decide, by decide⟩)
  refine ⟨?_, h.2⟩
  rw [h.1]
  decide

/-! ## db_handler: the Supabase store model

The store is a record of the three tables; every handler returns the new
store plus the ordered trace of store operations it issued.  Embedding
vectors are opaque `List Int` values produced by an `embed` oracle; the
`yaml` oracle stands for `yaml.safe_load` as in the metadata parser. -/

/-- The six-field metadata projection built for section-aware chunks
(db_handler.py lines 278-288): `file_id, file_title, chunk_index, section,
section_chunk_index, chunk_role`. -/
structure EnrichedMeta where
  file_id : String
  file_title : String
  chunk_index : Nat
  sectionName : List Char
  section_chunk_index : Nat
  chunk_role : String
deriving DecidableEq, Repr

/-- The metadata dict of a `documents` row: either the basic dict of
`insert_document_chunks` (lines 92-99) or an enriched dict (line 87), each
optionally extended with base64 `file_contents`. -/
inductive DocMeta where
  | basic (file_id file_url file_title : String) (mime_type : Option String)
      (chunk_index : Nat) (file_contents : Option (List Char))
  | enriched (m : EnrichedMeta) (file_contents : Option (List Char))
deriving DecidableEq, Repr

/-- The `metadata->>file_id` key used by the delete filter. -/
def DocMeta.fileId : DocMeta → String
  | DocMeta.basic fid _ _ _ _ _ => fid
  | DocMeta.enriched m _ => m.file_id

structure DocRecord where
  content : List Char
  metadata : DocMeta
  embedding : List Int
deriving DecidableEq, Repr

/-- A `document_rows.row_data` value: a key-metric row (nested or simple,
db_handler.py lines 252-264) or a plain record. -/
inductive RowData where
  | metricNested (metric_name : String) (fields : List (String × YVal))
  | metricSimple (metric_name : String) (value : YVal)
  | plain (fields : List (String × YVal))
deriving BEq, Repr

structure RowRecord where
  dataset_id : String
  row_data : RowData
deriving BEq, Repr

/-- The `document_metadata.schema` JSONB (db_handler.py lines 241-246, 269-274
and 299). -/
inductive SchemaData where
  | markdown (frontmatter : Option CaseStudyFrontmatter) (sections : List (List Char))
      (total_sections : Nat)
  | text (mime_type : Option String)
deriving BEq, Repr

structure MetaRecord where
  file_id : String
  file_name : String
  schema : SchemaData
deriving BEq, Repr

structure DB where
  documents : List DocRecord
  document_rows : List RowRecord
  document_metadata : List MetaRecord
deriving BEq, Repr

/-- One store operation, in issue order. -/
inductive DbOp where
  | deleteDocs (fid : String)
  | deleteRows (fid : String)
  | deleteMeta (fid : String)
  | selectMeta (fid : String)
  | insertMeta (fid : String)
  | updateMeta (fid : String)
  | insertRow (fid : String)
  | insertChunkBatch (fid : String) (batchSize : Nat)
deriving DecidableEq, Repr

/-- `delete_document_by_file_id(file_id)` (db_handler.py lines 30-57). -/
def delete_document_by_file_id (fid : String) (db : DB) : DB × List DbOp :=
  ({ documents := db.documents.filter (fun r => !(r.metadata.fileId == fid))
     document_rows := db.document_rows.filter (fun r => !(r.dataset_id == fid))
     document_metadata := db.document_metadata.filter (fun r => !(r.file_id == fid)) },
   [DbOp.deleteDocs fid, DbOp.deleteRows fid, DbOp.deleteMeta fid])

/-- `data[i:i+BATCH_SIZE]` grouping (db_handler.py lines 107-115); `fuel`
bounds the steps, callers pass `l.length + 1` and `n = 100`. -/
def batchesOfF {α : Type} : Nat → Nat → List α → List (List α)
  | 0, _, l => if l.isEmpty then [] else [l]
  | fuel+1, n, l => if l.isEmpty then [] else l.take n :: batchesOfF fuel n (l.drop n)

def batchesOf {α : Type} (n : Nat) (l : List α) : List (List α) :=
  batchesOfF (l.length + 1) n l

/-- The record list built by `insert_document_chunks` (lines 80-105): basic
metadata unless a non-empty enriched metadata list covers index `i`. -/
def chunkRecords (fid furl ftitle : String) (mime : Option String)
    (fileContents : Option (List Char)) (enriched : Option (List EnrichedMeta)) :
    List (List Char) → List (List Int) → Nat → List DocRecord
  | [], _, _ => []
  | _, [], _ => []
  | ch :: chs, emb :: embs, i =>
    let metadata :=
      match enriched with
      | some ms =>
        if !ms.isEmpty && i < ms.length then
          DocMeta.enriched (ms.getD i ⟨"", "", 0, [], 0, ""⟩) fileContents
        else DocMeta.basic fid furl ftitle mime i fileContents
      | none => DocMeta.basic fid furl ftitle mime i fileContents
    ⟨ch, metadata, emb⟩ ::
      chunkRecords fid furl ftitle mime fileContents enriched chs embs (i + 1)

/-- The per-batch insert loop of `insert_document_chunks` (lines 111-115). -/
def insertBatches (fid : String) : List (List DocRecord) → DB → DB × List DbOp
  | [], db => (db, [])
  | b :: bs, db =>
    let step := insertBatches fid bs { db with documents := db.documents ++ b }
    (step.1, DbOp.insertChunkBatch fid b.length :: step.2)

/-- `insert_document_chunks` (db_handler.py lines 59-117).  A chunk/embedding
count mismatch raises `ValueError`, which the function's own `except` swallows
after no insert. -/
def insert_document_chunks (chunks : List (List Char)) (embeddings : List (List Int))
    (fid furl ftitle : String) (mime : Option String) (fileContents : Option (List Char))
    (enriched : Option (List EnrichedMeta)) (db : DB) : DB × List DbOp :=
  if chunks.length ≠ embeddings.length then (db, [])
  else
    insertBatches fid
      (batchesOf 100 (chunkRecords fid furl ftitle mime fileContents enriched chunks embeddings 0))
      db

/-- `insert_or_update_document_metadata` (db_handler.py lines 119-148). -/
def insert_or_update_document_metadata (fid fname : String) (schema : SchemaData)
    (db : DB) : DB × List DbOp :=
  if db.document_metadata.any (fun r => r.file_id == fid) then
    ({ db with document_metadata := (db.document_metadata.map
        (fun r => if r.file_id == fid then ⟨fid, fname, schema⟩ else r)) },
     [DbOp.selectMeta fid, DbOp.updateMeta fid])
  else
    ({ db with document_metadata := db.document_metadata ++ [⟨fid, fname, schema⟩] },
     [DbOp.selectMeta fid, DbOp.insertMeta fid])

/-- `insert_document_rows` (db_handler.py lines 150-175): delete existing rows
for the id, then insert the new rows one by one. -/
def insert_document_rows (fid : String) (rows : List RowData) (db : DB) : DB × List DbOp :=
  ({ db with document_rows :=
      (db.document_rows.filter (fun r => !(r.dataset_id == fid)) ++
        rows.map (fun r => ⟨fid, r⟩)) },
   DbOp.deleteRows fid :: rows.map (fun _ => DbOp.insertRow fid))

/-- `config.get('text_processing', {})` and friends. -/
structure TextProcessing where
  default_chunk_size : Option Nat
  default_chunk_overlap : Option Nat
deriving BEq, Repr

structure Config where
  text_processing : Option TextProcessing
  tabular_mime_types : Option (List String)
deriving BEq, Repr

def Config.chunkSizeD (c : Config) (d : Nat) : Nat :=
  ((c.text_processing.getD ⟨none, none⟩).default_chunk_size).getD d

def Config.chunkOverlapD (c : Config) (d : Nat) : Nat :=
  ((c.text_processing.getD ⟨none, none⟩).default_chunk_overlap).getD d

/-- The markdown test of `process_file_for_rag` (db_handler.py lines 208-212). -/
def isMarkdownMime (mime : Option String) (ftitle : String) : Bool :=
  match mime with
  | none => false
  | some m =>
    decide (List.IsInfix (chars "text/markdown") m.toList) ||
      ((chars "text/").isPrefixOf m.toList && (chars ".md").isSuffixOf ftitle.toList)

def isImageMime (mime : Option String) : Bool :=
  match mime with
  | none => false
  | some m => (chars "image").isPrefixOf m.toList

/-- `list(dict.fromkeys(...))`: first-occurrence-order deduplication. -/
def dedupF : Nat → List (List Char) → List (List Char)
  | 0, l => l
  | _+1, [] => []
  | fuel+1, x :: rest => x :: dedupF fuel (rest.filter (fun y => !(y == x)))

def pyDedup (l : List (List Char)) : List (List Char) := dedupF (l.length + 1) l

/-- The key-metric rows derived from frontmatter (db_handler.py lines 248-267;
after validation `key_metrics` is a mapping or `None`, so the `isinstance list`
branch is dead). -/
def metricsRowsOf (fm : CaseStudyFrontmatter) : List RowData :=
  match fm.key_metrics with
  | none => []
  | some entries =>
    if entries.isEmpty then []
    else entries.map (fun e =>
      match e.2 with
      | YVal.dict d => RowData.metricNested e.1 d
      | v => RowData.metricSimple e.1 v)

/-- Everything `process_file_for_rag` does after the chunk lists are computed
(db_handler.py lines 301-335): metadata upsert, metric rows, embeddings,
chunk insert (image files keep their contents in the chunk metadata). -/
def processTail (embed : List (List Char) → List (List Int))
    (fid furl ftitle : String) (mime : Option String) (fileText : List Char)
    (schemaData : SchemaData) (metricsRows : List RowData)
    (chunksList : List (List Char)) (enrichedMeta : Option (List EnrichedMeta))
    (db1 : DB) : Bool × DB × List DbOp :=
  let s2 := insert_or_update_document_metadata fid ftitle schemaData db1
  let s3 := if metricsRows.isEmpty then (s2.1, ([] : List DbOp))
            else insert_document_rows fid metricsRows s2.1
  if chunksList.isEmpty then (false, s3.1, s2.2 ++ s3.2)
  else
    let embeddings := embed chunksList
    if isImageMime mime then
      let s4 := insert_document_chunks chunksList embeddings fid furl ftitle mime
        (some fileText) none s3.1
      (true, s4.1, s2.2 ++ s3.2 ++ s4.2)
    else
      let s4 := insert_document_chunks chunksList embeddings fid furl ftitle mime
        none enrichedMeta s3.1
      (true, s4.1, s2.2 ++ s3.2 ++ s4.2)

/-- The body of `process_file_for_rag` after the initial delete (db_handler.py
lines 198-335).  An uncaught exception inside the body (a `TypeError` from a
truthy non-mapping frontmatter, or the `ValueError` of `chunk_text`) is caught
by the function's outer `except`, which returns `False` with the store as it
stood — i.e. after the delete only, since both raises happen before any
insert. -/
def processRest (embed : List (List Char) → List (List Int))
    (yaml : List Char → Except Unit YVal)
    (fileText text : List Char) (fid furl ftitle : String)
    (mime : Option String) (config : Config) (db1 : DB) : Bool × DB × List DbOp :=
  let chunkSize := config.chunkSizeD 1500
  let chunkOverlap := config.chunkOverlapD 200
  if isMarkdownMime mime ftitle then
    match parse_case_study yaml fileText with
    | Except.error _ => (false, db1, [])
    | Except.ok fmBody =>
      let enriched := create_section_aware_chunks fmBody.2 fmBody.1 chunkSize fid furl ftitle
      let sectionNames := pyDedup (enriched.map (fun c => c.section_name))
      let schemaData := SchemaData.markdown fmBody.1 sectionNames sectionNames.length
      let metricsRows := match fmBody.1 with
        | some fm => metricsRowsOf fm
        | none => []
      let chunksList := enriched.map (fun c => c.content)
      let enrichedMeta := enriched.map (fun c =>
        EnrichedMeta.mk c.metadata.file_id c.metadata.file_title c.metadata.chunk_index
          c.metadata.sectionName c.metadata.section_chunk_index c.metadata.chunk_role)
      processTail embed fid furl ftitle mime fileText schemaData metricsRows chunksList
        (some enrichedMeta) db1
  else
    match chunk_text text chunkSize chunkOverlap with
    | Except.error _ => (false, db1, [])
    | Except.ok chunksList =>
      processTail embed fid furl ftitle mime fileText (SchemaData.text mime) [] chunksList
        none db1

/-- `process_file_for_rag` (db_handler.py lines 177-339): delete existing
records for the file id, then re-derive schema, rows and chunks and write
them. -/
def process_file_for_rag (embed : List (List Char) → List (List Int))
    (yaml : List Char → Except Unit YVal)
    (fileText text : List Char) (fid furl ftitle : String)
    (mime : Option String) (config : Config) (db : DB) : Bool × DB × List DbOp :=
  let s1 := delete_document_by_file_id fid db
  let s2 := processRest embed yaml fileText text fid furl ftitle mime config s1.1
  (s2.1, s2.2.1, s1.2 ++ s2.2.2)

/-! ## C1/C6/C9: characterisation of one ingestion run -/

theorem getD_mem_of_lt {α : Type} (l : List α) (i : Nat) (d : α) (h : i < l.length) :
    l.getD i d ∈ l := by
  rw [List.getD_eq_getElem?_getD, List.getElem?_eq_getElem h]
  exact List.getElem_mem h

theorem insertBatches_spec (fid : String) : ∀ (bs : List (List DocRecord)) (db : DB),
    insertBatches fid bs db =
      ({ db with documents := db.documents ++ bs.flatten },
       bs.map (fun b => DbOp.insertChunkBatch fid b.length)) := by
  intro bs
  induction bs with
  | nil => intro db; simp [insertBatches]
  | cons b rest ih =>
    intro db
    simp only [insertBatches, ih]
    simp [List.append_assoc]

theorem batchesOfF_flatten {α : Type} (n : Nat) (hn : 1 ≤ n) :
    ∀ (fuel : Nat) (l : List α), l.length < fuel →
      (batchesOfF fuel n l).flatten = l := by
  intro fuel
  induction fuel with
  | zero => intro l h; omega
  | succ fuel ih =>
    intro l h
    by_cases he : l.isEmpty
    · rw [List.isEmpty_iff] at he
      subst he
      rfl
    · simp only [batchesOfF, he, Bool.false_eq_true, if_false]
      rw [List.flatten_cons]
      have hne : l ≠ [] := by
        intro hnil
        rw [hnil] at he
        simp at he
      have hlen : (l.drop n).length < fuel := by
        rw [List.length_drop]
        have : 1 ≤ l.length := by
          match l with
          | [] => exact absurd rfl hne
          | x :: xs => simp
        omega
      rw [ih (l.drop n) hlen, List.take_append_drop]

theorem batchesOfF_sizes {α : Type} (n : Nat) (hn : 1 ≤ n) :
    ∀ (fuel : Nat) (l : List α), l.length < fuel →
      ∀ b ∈ batchesOfF fuel n l, b.length ≤ n := by
  intro fuel
  induction fuel with
  | zero => intro l h; omega
  | succ fuel ih =>
    intro l h b hb
    by_cases he : l.isEmpty
    · simp only [batchesOfF, he, if_true] at hb
      simp at hb
    · simp only [batchesOfF, he, Bool.false_eq_true, if_false] at hb
      rcases List.mem_cons.mp hb with hb | hb
      · subst hb
        simp
      · have hne : l ≠ [] := by
          intro hnil
          rw [hnil] at he
          simp at he
        have hlen : (l.drop n).length < fuel := by
          rw [List.length_drop]
          have : 1 ≤ l.length := by
            match l with
            | [] => exact absurd rfl hne
            | x :: xs => simp
          omega
        exact ih (l.drop n) hlen b hb

theorem chunkRecords_fileId (fid furl ftitle : String) (mime : Option String)
    (fc : Option (List Char)) (enriched : Option (List EnrichedMeta))
    (hen : ∀ ms, enriched = some ms → ∀ m ∈ ms, m.file_id = fid) :
    ∀ (chs : List (List Char)) (embs : List (List Int)) (i : Nat),
      ∀ r ∈ chunkRecords fid furl ftitle mime fc enriched chs embs i,
        r.metadata.fileId = fid := by
  intro chs
  induction chs with
  | nil => intro embs i r hr; simp [chunkRecords] at hr
  | cons ch chs ih =>
    intro embs i r hr
    match embs with
    | [] => simp [chunkRecords] at hr
    | emb :: embs =>
      simp only [chunkRecords] at hr
      rcases List.mem_cons.mp hr with hr | hr
      · subst hr
        match henr : enriched with
        | none => rfl
        | some ms =>
          dsimp only
          by_cases hcase : (!ms.isEmpty && decide (i < ms.length)) = true
          · rw [if_pos hcase]
            simp only [Bool.and_eq_true, decide_eq_true_eq] at hcase
            have hmem : ms.getD i ⟨"", "", 0, [], 0, ""⟩ ∈ ms :=
              getD_mem_of_lt ms i _ hcase.2
            exact hen ms rfl _ hmem
          · rw [if_neg hcase]
            rfl
      · exact ih embs (i + 1) r hr

theorem enrichChunksOfSection_fileId (fm : Option CaseStudyFrontmatter)
    (fid furl ftitle : String) (name : List Char) (total : Nat) :
    ∀ (cts : List (List Char)) (g si : Nat),
      ∀ c ∈ enrichChunksOfSection fm fid furl ftitle name total cts g si,
        c.metadata.file_id = fid := by
  intro cts
  induction cts with
  | nil => intro g si c hc; simp [enrichChunksOfSection] at hc
  | cons ct rest ih =>
    intro g si c hc
    simp only [enrichChunksOfSection] at hc
    rcases List.mem_cons.mp hc with hc | hc
    · subst hc; rfl
    · exact ih (g + 1) (si + 1) c hc

theorem enrichLoop_fileId (fm : Option CaseStudyFrontmatter)
    (fid furl ftitle : String) (m : Nat) :
    ∀ (ss : List Section) (g : Nat),
      ∀ c ∈ enrichLoop fm fid furl ftitle m ss g, c.metadata.file_id = fid := by
  intro ss
  induction ss with
  | nil => intro g c hc; simp [enrichLoop] at hc
  | cons sec rest ih =>
    intro g c hc
    simp only [enrichLoop] at hc
    rcases List.mem_append.mp hc with hc | hc
    · exact enrichChunksOfSection_fileId _ _ _ _ _ _ _ _ _ c hc
    · exact ih _ c hc

theorem create_section_aware_chunks_fileId (text : List Char)
    (fm : Option CaseStudyFrontmatter) (m : Nat) (fid furl ftitle : String) :
    ∀ c ∈ create_section_aware_chunks text fm m fid furl ftitle,
      c.metadata.file_id = fid := by
  intro c hc
  exact enrichLoop_fileId fm fid furl ftitle m _ 0 c hc

/-- What one run of `process_file_for_rag` computes independently of the store
it runs against: the success flag, the records it inserts for the file id,
and the trace of operations after the initial delete. -/
structure ProcessPlan where
  success : Bool
  newDocs : List DocRecord
  newRows : List RowRecord
  newMeta : List MetaRecord
  ops : List DbOp

def planTail (embed : List (List Char) → List (List Int))
    (fid furl ftitle : String) (mime : Option String) (fileText : List Char)
    (schemaData : SchemaData) (metricsRows : List RowData)
    (chunksList : List (List Char)) (enrichedMeta : Option (List EnrichedMeta)) :
    ProcessPlan :=
  let metaOps : List DbOp := [DbOp.selectMeta fid, DbOp.insertMeta fid]
  let newMeta : List MetaRecord := [⟨fid, ftitle, schemaData⟩]
  let newRows : List RowRecord :=
    if metricsRows.isEmpty then [] else metricsRows.map (fun r => ⟨fid, r⟩)
  let rowOps : List DbOp :=
    if metricsRows.isEmpty then []
    else DbOp.deleteRows fid :: metricsRows.map (fun _ => DbOp.insertRow fid)
  if chunksList.isEmpty then ⟨false, [], newRows, newMeta, metaOps ++ rowOps⟩
  else
    let embeddings := embed chunksList
    let fc := if isImageMime mime then some fileText else none
    let em := if isImageMime mime then none else enrichedMeta
    if chunksList.length ≠ embeddings.length then
      ⟨true, [], newRows, newMeta, metaOps ++ rowOps⟩
    else
      let data := chunkRecords fid furl ftitle mime fc em chunksList embeddings 0
      ⟨true, data, newRows, newMeta,
       metaOps ++ rowOps ++
         (batchesOf 100 data).map (fun b => DbOp.insertChunkBatch fid b.length)⟩

def processPlan (embed : List (List Char) → List (List Int))
    (yaml : List Char → Except Unit YVal)
    (fileText text : List Char) (fid furl ftitle : String)
    (mime : Option String) (config : Config) : ProcessPlan :=
  let chunkSize := config.chunkSizeD 1500
  let chunkOverlap := config.chunkOverlapD 200
  if isMarkdownMime mime ftitle then
    match parse_case_study yaml fileText with
    | Except.error _ => ⟨false, [], [], [], []⟩
    | Except.ok fmBody =>
      let enriched := create_section_aware_chunks fmBody.2 fmBody.1 chunkSize fid furl ftitle
      let sectionNames := pyDedup (enriched.map (fun c => c.section_name))
      let schemaData := SchemaData.markdown fmBody.1 sectionNames sectionNames.length
      let metricsRows := match fmBody.1 with
        | some fm => metricsRowsOf fm
        | none => []
      let chunksList := enriched.map (fun c => c.content)
      let enrichedMeta := enriched.map (fun c =>
        EnrichedMeta.mk c.metadata.file_id c.metadata.file_title c.metadata.chunk_index
          c.metadata.sectionName c.metadata.section_chunk_index c.metadata.chunk_role)
      planTail embed fid furl ftitle mime fileText schemaData metricsRows chunksList
        (some enrichedMeta)
  else
    match chunk_text text chunkSize chunkOverlap with
    | Except.error _ => ⟨false, [], [], [], []⟩
    | Except.ok chunksList =>
      planTail embed fid furl ftitle mime fileText (SchemaData.text mime) [] chunksList none

theorem processTail_plan (embed : List (List Char) → List (List Int))
    (fid furl ftitle : String) (mime : Option String) (fileText : List Char)
    (schemaData : SchemaData) (metricsRows : List RowData)
    (chunksList : List (List Char)) (enrichedMeta : Option (List EnrichedMeta))
    (db1 : DB)
    (hmeta : ∀ r ∈ db1.document_metadata, ¬ (r.file_id == fid) = true)
    (hrows : ∀ r ∈ db1.document_rows, ¬ (r.dataset_id == fid) = true) :
    processTail embed fid furl ftitle mime fileText schemaData metricsRows chunksList
        enrichedMeta db1 =
      ((planTail embed fid furl ftitle mime fileText schemaData metricsRows chunksList
          enrichedMeta).success,
       { documents := db1.documents ++ (planTail embed fid furl ftitle mime fileText
           schemaData metricsRows chunksList enrichedMeta).newDocs
         document_rows := db1.document_rows ++ (planTail embed fid furl ftitle mime fileText
           schemaData metricsRows chunksList enrichedMeta).newRows
         document_metadata := db1.document_metadata ++ (planTail embed fid furl ftitle mime
           fileText schemaData metricsRows chunksList enrichedMeta).newMeta },
       (planTail embed fid furl ftitle mime fileText schemaData metricsRows chunksList
         enrichedMeta).ops) := by
  have hany : db1.document_metadata.any (fun r => r.file_id == fid) = false :=
    List.any_eq_false.mpr hmeta
  have hupsert : insert_or_update_document_metadata fid ftitle schemaData db1 =
      ({ db1 with document_metadata := db1.document_metadata ++ [⟨fid, ftitle, schemaData⟩] },
       [DbOp.selectMeta fid, DbOp.insertMeta fid]) := by
    unfold insert_or_update_document_metadata
    rw [hany]
    rfl
  have hrowfilter : db1.document_rows.filter (fun r => !(r.dataset_id == fid)) =
      db1.document_rows := by
    apply List.filter_eq_self.mpr
    intro a ha
    simpa using hrows a ha
  unfold processTail planTail
  rw [hupsert]
  dsimp only
  by_cases hmr : metricsRows.isEmpty
  · rw [if_pos hmr, if_pos hmr, if_pos hmr]
    by_cases hcl : chunksList.isEmpty
    · rw [if_pos hcl, if_pos hcl]
      simp
    · rw [if_neg hcl, if_neg hcl]
      by_cases himg : isImageMime mime
      · rw [if_pos himg, if_pos himg, if_pos himg]
        unfold insert_document_chunks
        by_cases hlen : chunksList.length ≠ (embed chunksList).length
        · rw [if_pos hlen, if_pos hlen]
          simp
        · rw [if_neg hlen, if_neg hlen]
          rw [insertBatches_spec]
          have hflat : (batchesOf 100 (chunkRecords fid furl ftitle mime (some fileText) none
              chunksList (embed chunksList) 0)).flatten =
              chunkRecords fid furl ftitle mime (some fileText) none
                chunksList (embed chunksList) 0 :=
            batchesOfF_flatten 100 (by omega) _ _ (by omega)
          rw [hflat]
          try simp
      · rw [if_neg himg, if_neg himg, if_neg himg]
        unfold insert_document_chunks
        by_cases hlen : chunksList.length ≠ (embed chunksList).length
        · rw [if_pos hlen, if_pos hlen]
          simp
        · rw [if_neg hlen, if_neg hlen]
          rw [insertBatches_spec]
          have hflat : (batchesOf 100 (chunkRecords fid furl ftitle mime none enrichedMeta
              chunksList (embed chunksList) 0)).flatten =
              chunkRecords fid furl ftitle mime none enrichedMeta
                chunksList (embed chunksList) 0 :=
            batchesOfF_flatten 100 (by omega) _ _ (by omega)
          rw [hflat]
          try simp
  · rw [if_neg hmr, if_neg hmr, if_neg hmr]
    unfold insert_document_rows
    dsimp only
    rw [hrowfilter]
    by_cases hcl : chunksList.isEmpty
    · rw [if_pos hcl, if_pos hcl]
      simp
    · rw [if_neg hcl, if_neg hcl]
      by_cases himg : isImageMime mime
      · rw [if_pos himg, if_pos himg, if_pos himg]
        unfold insert_document_chunks
        by_cases hlen : chunksList.length ≠ (embed chunksList).length
        · rw [if_pos hlen, if_pos hlen]
          simp
        · rw [if_neg hlen, if_neg hlen]
          rw [insertBatches_spec]
          have hflat : (batchesOf 100 (chunkRecords fid furl ftitle mime (some fileText) none
              chunksList (embed chunksList) 0)).flatten =
              chunkRecords fid furl ftitle mime (some fileText) none
                chunksList (embed chunksList) 0 :=
            batchesOfF_flatten 100 (by omega) _ _ (by omega)
          rw [hflat]
          try simp
      · rw [if_neg himg, if_neg himg, if_neg himg]
        unfold insert_document_chunks
        by_cases hlen : chunksList.length ≠ (embed chunksList).length
        · rw [if_pos hlen, if_pos hlen]
          simp
        · rw [if_neg hlen, if_neg hlen]
          rw [insertBatches_spec]
          have hflat : (batchesOf 100 (chunkRecords fid furl ftitle mime none enrichedMeta
              chunksList (embed chunksList) 0)).flatten =
              chunkRecords fid furl ftitle mime none enrichedMeta
                chunksList (embed chunksList) 0 :=
            batchesOfF_flatten 100 (by omega) _ _ (by omega)
          rw [hflat]
          try simp

theorem processRest_plan (embed : List (List Char) → List (List Int))
    (yaml : List Char → Except Unit YVal)
    (fileText text : List Char) (fid furl ftitle : String)
    (mime : Option String) (config : Config) (db1 : DB)
    (hmeta : ∀ r ∈ db1.document_metadata, ¬ (r.file_id == fid) = true)
    (hrows : ∀ r ∈ db1.document_rows, ¬ (r.dataset_id == fid) = true) :
    processRest embed yaml fileText text fid furl ftitle mime config db1 =
      ((processPlan embed yaml fileText text fid furl ftitle mime config).success,
       { documents := db1.documents ++
           (processPlan embed yaml fileText text fid furl ftitle mime config).newDocs
         document_rows := db1.document_rows ++
           (processPlan embed yaml fileText text fid furl ftitle mime config).newRows
         document_metadata := db1.document_metadata ++
           (processPlan embed yaml fileText text fid furl ftitle mime config).newMeta },
       (processPlan embed yaml fileText text fid furl ftitle mime config).ops) := by
  unfold processRest processPlan
  by_cases hmk : isMarkdownMime mime ftitle
  · rw [if_pos hmk, if_pos hmk]
    cases hp : parse_case_study yaml fileText with
    | error e =>
      dsimp only
      simp
    | ok fmBody =>
      dsimp only
      exact processTail_plan embed fid furl ftitle mime fileText _ _ _ _ db1 hmeta hrows
  · rw [if_neg hmk, if_neg hmk]
    cases hc : chunk_text text (config.chunkSizeD 1500) (config.chunkOverlapD 200) with
    | error e =>
      dsimp only
      simp
    | ok chunksList =>
      dsimp only
      exact processTail_plan embed fid furl ftitle mime fileText _ _ _ _ db1 hmeta hrows

theorem planTail_new_fid (embed : List (List Char) → List (List Int))
    (fid furl ftitle : String) (mime : Option String) (fileText : List Char)
    (schemaData : SchemaData) (metricsRows : List RowData)
    (chunksList : List (List Char)) (enrichedMeta : Option (List EnrichedMeta))
    (hen : ∀ ms, enrichedMeta = some ms → ∀ m ∈ ms, m.file_id = fid) :
    (∀ r ∈ (planTail embed fid furl ftitle mime fileText schemaData metricsRows chunksList
        enrichedMeta).newDocs, r.metadata.fileId = fid) ∧
    (∀ r ∈ (planTail embed fid furl ftitle mime fileText schemaData metricsRows chunksList
        enrichedMeta).newRows, r.dataset_id = fid) ∧
    (∀ r ∈ (planTail embed fid furl ftitle mime fileText schemaData metricsRows chunksList
        enrichedMeta).newMeta, r.file_id = fid) := by
  have hrows : ∀ r ∈ (if metricsRows.isEmpty then ([] : List RowRecord)
      else metricsRows.map (fun r => ⟨fid, r⟩)), r.dataset_id = fid := by
    intro r hr
    by_cases hmr : metricsRows.isEmpty
    · rw [if_pos hmr] at hr; simp at hr
    · rw [if_neg hmr] at hr
      obtain ⟨a, _, ha⟩ := List.mem_map.mp hr
      rw [← ha]
  unfold planTail
  by_cases hcl : chunksList.isEmpty
  · rw [if_pos hcl]
    refine ⟨?_, hrows, ?_⟩
    · intro r hr; simp at hr
    · intro r hr
      simp at hr
      rw [hr]
  · rw [if_neg hcl]
    dsimp only
    by_cases hlen : chunksList.length ≠ (embed chunksList).length
    · rw [if_pos hlen]
      refine ⟨?_, hrows, ?_⟩
      · intro r hr; simp at hr
      · intro r hr
        simp at hr
        rw [hr]
    · rw [if_neg hlen]
      refine ⟨?_, hrows, ?_⟩
      · intro r hr
        apply chunkRecords_fileId fid furl ftitle mime _ _ _ _ _ _ r hr
        intro ms hms m hm
        by_cases himg : isImageMime mime
        · rw [if_pos himg] at hms; cases hms
        · rw [if_neg himg] at hms
          exact hen ms hms m hm
      · intro r hr
        simp at hr
        rw [hr]

theorem processPlan_new_fid (embed : List (List Char) → List (List Int))
    (yaml : List Char → Except Unit YVal)
    (fileText text : List Char) (fid furl ftitle : String)
    (mime : Option String) (config : Config) :
    (∀ r ∈ (processPlan embed yaml fileText text fid furl ftitle mime config).newDocs,
      r.metadata.fileId = fid) ∧
    (∀ r ∈ (processPlan embed yaml fileText text fid furl ftitle mime config).newRows,
      r.dataset_id = fid) ∧
    (∀ r ∈ (processPlan embed yaml fileText text fid furl ftitle mime config).newMeta,
      r.file_id = fid) := by
  unfold processPlan
  by_cases hmk : isMarkdownMime mime ftitle
  · rw [if_pos hmk]
    cases hp : parse_case_study yaml fileText with
    | error e =>
      refine ⟨?_, ?_, ?_⟩ <;> intro r hr <;> simp at hr
    | ok fmBody =>
      dsimp only
      apply planTail_new_fid
      intro ms hms m hm
      cases hms
      obtain ⟨c, hc, hcm⟩ := List.mem_map.mp hm
      rw [← hcm]
      exact create_section_aware_chunks_fileId _ _ _ _ _ _ c hc
  · rw [if_neg hmk]
    cases hc : chunk_text text (config.chunkSizeD 1500) (config.chunkOverlapD 200) with
    | error e =>
      refine ⟨?_, ?_, ?_⟩ <;> intro r hr <;> simp at hr
    | ok chunksList =>
      dsimp only
      apply planTail_new_fid
      intro ms hms
      cases hms

theorem delete_clean (fid : String) (db : DB) :
    (∀ r ∈ (delete_document_by_file_id fid db).1.documents,
      ¬ (r.metadata.fileId == fid) = true) ∧
    (∀ r ∈ (delete_document_by_file_id fid db).1.document_rows,
      ¬ (r.dataset_id == fid) = true) ∧
    (∀ r ∈ (delete_document_by_file_id fid db).1.document_metadata,
      ¬ (r.file_id == fid) = true) := by
  refine ⟨?_, ?_, ?_⟩ <;> intro r hr <;>
    simpa using List.of_mem_filter hr

theorem delete_extended (fid : String) (db1 : DB)
    (nd : List DocRecord) (nr : List RowRecord) (nm : List MetaRecord)
    (h1 : ∀ r ∈ db1.documents, ¬ (r.metadata.fileId == fid) = true)
    (h2 : ∀ r ∈ db1.document_rows, ¬ (r.dataset_id == fid) = true)
    (h3 : ∀ r ∈ db1.document_metadata, ¬ (r.file_id == fid) = true)
    (g1 : ∀ r ∈ nd, r.metadata.fileId = fid)
    (g2 : ∀ r ∈ nr, r.dataset_id = fid)
    (g3 : ∀ r ∈ nm, r.file_id = fid) :
    delete_document_by_file_id fid
        { documents := db1.documents ++ nd
          document_rows := db1.document_rows ++ nr
          document_metadata := db1.document_metadata ++ nm } =
      (db1, [DbOp.deleteDocs fid, DbOp.deleteRows fid, DbOp.deleteMeta fid]) := by
  have e1 : (db1.documents ++ nd).filter (fun r => !(r.metadata.fileId == fid)) =
      db1.documents := by
    rw [List.filter_append, List.filter_eq_self.mpr (by intro a ha; simpa using h1 a ha)]
    have : nd.filter (fun r => !(r.metadata.fileId == fid)) = [] := by
      apply List.filter_eq_nil_iff.mpr
      intro a ha
      simp [g1 a ha]
    rw [this, List.append_nil]
  have e2 : (db1.document_rows ++ nr).filter (fun r => !(r.dataset_id == fid)) =
      db1.document_rows := by
    rw [List.filter_append, List.filter_eq_self.mpr (by intro a ha; simpa using h2 a ha)]
    have : nr.filter (fun r => !(r.dataset_id == fid)) = [] := by
      apply List.filter_eq_nil_iff.mpr
      intro a ha
      simp [g2 a ha]
    rw [this, List.append_nil]
  have e3 : (db1.document_metadata ++ nm).filter (fun r => !(r.file_id == fid)) =
      db1.document_metadata := by
    rw [List.filter_append, List.filter_eq_self.mpr (by intro a ha; simpa using h3 a ha)]
    have : nm.filter (fun r => !(r.file_id == fid)) = [] := by
      apply List.filter_eq_nil_iff.mpr
      intro a ha
      simp [g3 a ha]
    rw [this, List.append_nil]
  unfold delete_document_by_file_id
  rw [e1, e2, e3]

theorem process_run_of_delete (embed : List (List Char) → List (List Int))
    (yaml : List Char → Except Unit YVal)
    (fileText text : List Char) (fid furl ftitle : String)
    (mime : Option String) (config : Config) (dbx d1 : DB)
    (hdel : delete_document_by_file_id fid dbx =
      (d1, [DbOp.deleteDocs fid, DbOp.deleteRows fid, DbOp.deleteMeta fid]))
    (hm : ∀ r ∈ d1.document_metadata, ¬ (r.file_id == fid) = true)
    (hr : ∀ r ∈ d1.document_rows, ¬ (r.dataset_id == fid) = true) :
    process_file_for_rag embed yaml fileText text fid furl ftitle mime config dbx =
      ((processPlan embed yaml fileText text fid furl ftitle mime config).success,
       { documents := d1.documents ++
           (processPlan embed yaml fileText text fid furl ftitle mime config).newDocs
         document_rows := d1.document_rows ++
           (processPlan embed yaml fileText text fid furl ftitle mime config).newRows
         document_metadata := d1.document_metadata ++
           (processPlan embed yaml fileText text fid furl ftitle mime config).newMeta },
       [DbOp.deleteDocs fid, DbOp.deleteRows fid, DbOp.deleteMeta fid] ++
         (processPlan embed yaml fileText text fid furl ftitle mime config).ops) := by
  unfold process_file_for_rag
  dsimp only
  rw [hdel]
  dsimp only
  rw [processRest_plan embed yaml fileText text fid furl ftitle mime config d1 hm hr]

theorem processPlan_newMeta_len (embed : List (List Char) → List (List Int))
    (yaml : List Char → Except Unit YVal)
    (fileText text : List Char) (fid furl ftitle : String)
    (mime : Option String) (config : Config) :
    (processPlan embed yaml fileText text fid furl ftitle mime config).newMeta.length ≤ 1 := by
  unfold processPlan
  by_cases hmk : isMarkdownMime mime ftitle
  · rw [if_pos hmk]
    cases hp : parse_case_study yaml fileText with
    | error e => simp
    | ok fmBody =>
      dsimp only
      unfold planTail
      by_cases hcl : ((create_section_aware_chunks fmBody.2 fmBody.1 (config.chunkSizeD 1500)
          fid furl ftitle).map (fun c => c.content)).isEmpty
      · rw [if_pos hcl]
        simp
      · rw [if_neg hcl]
        dsimp only
        by_cases hlen : ((create_section_aware_chunks fmBody.2 fmBody.1 (config.chunkSizeD 1500)
            fid furl ftitle).map (fun c => c.content)).length ≠
            (embed ((create_section_aware_chunks fmBody.2 fmBody.1 (config.chunkSizeD 1500)
              fid furl ftitle).map (fun c => c.content))).length
        · rw [if_pos hlen]
          simp
        · rw [if_neg hlen]
          simp
  · rw [if_neg hmk]
    cases hc : chunk_text text (config.chunkSizeD 1500) (config.chunkOverlapD 200) with
    | error e => simp
    | ok chunksList =>
      dsimp only
      unfold planTail
      by_cases hcl : chunksList.isEmpty
      · rw [if_pos hcl]
        simp
      · rw [if_neg hcl]
        dsimp only
        by_cases hlen : chunksList.length ≠ (embed chunksList).length
        · rw [if_pos hlen]
          simp
        · rw [if_neg hlen]
          simp

/-- C1: idempotent re-ingestion.  Running `process_file_for_rag` twice on the
same unchanged document and store leaves the store, the returned flag and the
per-run operation trace identical to a single run, because each invocation
first deletes every chunk, row and metadata record keyed by the file id.
Moreover after one run the records keyed by the file id are exactly the run's
own plan: its chunk records, its metric rows, and at most one metadata
record. -/
theorem C1_idempotent_reingestion
    (embed : List (List Char) → List (List Int))
    (yaml : List Char → Except Unit YVal)
    (fileText text : List Char) (fid furl ftitle : String)
    (mime : Option String) (config : Config) (db : DB) :
    process_file_for_rag embed yaml fileText text fid furl ftitle mime config
        (process_file_for_rag embed yaml fileText text fid furl ftitle mime config db).2.1 =
      process_file_for_rag embed yaml fileText text fid furl ftitle mime config db ∧
    (process_file_for_rag embed yaml fileText text fid furl ftitle mime config
        db).2.1.documents.filter (fun r => r.metadata.fileId == fid) =
      (processPlan embed yaml fileText text fid furl ftitle mime config).newDocs ∧
    (process_file_for_rag embed yaml fileText text fid furl ftitle mime config
        db).2.1.document_rows.filter (fun r => r.dataset_id == fid) =
      (processPlan embed yaml fileText text fid furl ftitle mime config).newRows ∧
    (process_file_for_rag embed yaml fileText text fid furl ftitle mime config
        db).2.1.document_metadata.filter (fun r => r.file_id == fid) =
      (processPlan embed yaml fileText text fid furl ftitle mime config).newMeta ∧
    (processPlan embed yaml fileText text fid furl ftitle mime config).newMeta.length ≤ 1 := by
  obtain ⟨h1, h2, h3⟩ := delete_clean fid db
  obtain ⟨g1, g2, g3⟩ := processPlan_new_fid embed yaml fileText text fid furl ftitle mime config
  have hrun1 := process_run_of_delete embed yaml fileText text fid furl ftitle mime config db
    (delete_document_by_file_id fid db).1 rfl h3 h2
  have hdel2 := delete_extended fid (delete_document_by_file_id fid db).1
    (processPlan embed yaml fileText text fid furl ftitle mime config).newDocs
    (processPlan embed yaml fileText text fid furl ftitle mime config).newRows
    (processPlan embed yaml fileText text fid furl ftitle mime config).newMeta
    h1 h2 h3 g1 g2 g3
  have hrun2 := process_run_of_delete embed yaml fileText text fid furl ftitle mime config
    { documents := (delete_document_by_file_id fid db).1.documents ++
        (processPlan embed yaml fileText text fid furl ftitle mime config).newDocs
      document_rows := (delete_document_by_file_id fid db).1.document_rows ++
        (processPlan embed yaml fileText text fid furl ftitle mime config).newRows
      document_metadata := (delete_document_by_file_id fid db).1.document_metadata ++
        (processPlan embed yaml fileText text fid furl ftitle mime config).newMeta }
    (delete_document_by_file_id fid db).1 hdel2 h3 h2
  refine ⟨?_, ?_, ?_, ?_,
    processPlan_newMeta_len embed yaml fileText text fid furl ftitle mime config⟩
  · rw [hrun1]
    dsimp only
    exact hrun2
  · rw [hrun1]
    dsimp only
    rw [List.filter_append]
    have ha : (delete_document_by_file_id fid db).1.documents.filter
        (fun r => r.metadata.fileId == fid) = [] := by
      apply List.filter_eq_nil_iff.mpr
      intro a haa
      simpa using h1 a haa
    have hb : ((processPlan embed yaml fileText text fid furl ftitle mime config).newDocs.filter
        (fun r => r.metadata.fileId == fid)) =
        (processPlan embed yaml fileText text fid furl ftitle mime config).newDocs := by
      apply List.filter_eq_self.mpr
      intro a haa
      simp [g1 a haa]
    rw [ha, hb, List.nil_append]
  · rw [hrun1]
    dsimp only
    rw [List.filter_append]
    have ha : (delete_document_by_file_id fid db).1.document_rows.filter
        (fun r => r.dataset_id == fid) = [] := by
      apply List.filter_eq_nil_iff.mpr
      intro a haa
      simpa using h2 a haa
    have hb : ((processPlan embed yaml fileText text fid furl ftitle mime config).newRows.filter
        (fun r => r.dataset_id == fid)) =
        (processPlan embed yaml fileText text fid furl ftitle mime config).newRows := by
      apply List.filter_eq_self.mpr
      intro a haa
      simp [g2 a haa]
    rw [ha, hb, List.nil_append]
  · rw [hrun1]
    dsimp only
    rw [List.filter_append]
    have ha : (delete_document_by_file_id fid db).1.document_metadata.filter
        (fun r => r.file_id == fid) = [] := by
      apply List.filter_eq_nil_iff.mpr
      intro a haa
      simpa using h3 a haa
    have hb : ((processPlan embed yaml fileText text fid furl ftitle mime config).newMeta.filter
        (fun r => r.file_id == fid)) =
        (processPlan embed yaml fileText text fid furl ftitle mime config).newMeta := by
      apply List.filter_eq_self.mpr
      intro a haa
      simp [g3 a haa]
    rw [ha, hb, List.nil_append]

/-! ## async_db_handler: the asynchronous ingestion path (C6, C8)

`FileMetadata` and `IngestionResult` follow schemas.py (wall-clock
`processing_time_ms` and the unused `chunk_count` / `source_type` fields are
not modelled).  `extract_schema_from_csv` / `extract_rows_from_csv` are oracle
parameters, `create_embeddings` an oracle that may raise, and transient
failures of the batch insert an oracle `Nat → Except String Unit` giving each
attempt's outcome; a failed attempt leaves no surviving writes. -/

structure FileMetadata where
  file_id : String
  file_url : String
  file_title : String
  mime_type : String
  case_study_metadata : Option CaseStudyFrontmatter
deriving BEq, Repr

structure IngestionResult where
  success : Bool
  file_id : String
  chunks_inserted : Nat
  rows_inserted : Nat
  error_message : Option String
  frontmatter_extracted : Bool
deriving BEq, Repr

/-- The `metadata` JSONB written by `insert_document_chunks_batch`
(async_db_handler.py lines 136-155): base keys, the merged frontmatter dump if
present, and `chunk_index`. -/
structure AsyncDocMeta where
  file_id : String
  file_url : String
  file_title : String
  mime_type : String
  frontmatter : Option CaseStudyFrontmatter
  chunk_index : Nat
deriving BEq, Repr

structure AsyncDocRecord where
  content : List Char
  metadata : AsyncDocMeta
  embedding : List Int
deriving BEq, Repr

/-- `document_metadata` rows on the async path are keyed by `id` and store
`title`, `url` and an optional JSON-encoded column list (lines 192-200). -/
structure AsyncMetaRecord where
  id : String
  title : String
  url : String
  schema : Option (List String)
deriving BEq, Repr

structure AsyncDB where
  documents : List AsyncDocRecord
  document_rows : List RowRecord
  document_metadata : List AsyncMetaRecord
deriving BEq, Repr

/-- `delete_document_by_file_id_async` (async_db_handler.py lines 73-108);
the metadata filter is keyed `id`. -/
def delete_document_by_file_id_async (fid : String) (db : AsyncDB) : AsyncDB × List DbOp :=
  ({ documents := db.documents.filter (fun r => !(r.metadata.file_id == fid))
     document_rows := db.document_rows.filter (fun r => !(r.dataset_id == fid))
     document_metadata := db.document_metadata.filter (fun r => !(r.id == fid)) },
   [DbOp.deleteDocs fid, DbOp.deleteRows fid, DbOp.deleteMeta fid])

/-- The default tabular MIME list of `is_tabular_file`
(text_processor.py lines 147-153). -/
def defaultTabularMimes : List String :=
  ["csv", "xlsx", "text/csv",
   "application/vnd.openxmlformats-officedocument.spreadsheetml.sheet",
   "application/vnd.google-apps.spreadsheet"]

/-- `is_tabular_file(mime_type, config)` (text_processor.py lines 135-159):
`startswith` against the configured or default list. -/
def is_tabular_file (mime : String) (config : Config) : Bool :=
  (match config.tabular_mime_types with
   | some l => l
   | none => defaultTabularMimes).any (fun t => (chars t).isPrefixOf (chars mime))

/-- `insert_or_update_document_metadata_async` (async_db_handler.py lines
172-212): the `schema` key is added only when the argument is truthy (not
`None` and non-empty); an update without the key keeps the stored column
list. -/
def insert_or_update_document_metadata_async (fm : FileMetadata)
    (schema : Option (List String)) (db : AsyncDB) : AsyncDB × List DbOp :=
  let schemaVal : Option (List String) :=
    match schema with
    | some cols => if cols.isEmpty then none else some cols
    | none => none
  if db.document_metadata.any (fun r => r.id == fm.file_id) then
    ({ db with document_metadata := (db.document_metadata.map (fun r =>
        if r.id == fm.file_id then
          ⟨fm.file_id, fm.file_title, fm.file_url,
           match schemaVal with
           | some s => some s
           | none => r.schema⟩
        else r)) },
     [DbOp.selectMeta fm.file_id, DbOp.updateMeta fm.file_id])
  else
    ({ db with document_metadata :=
        db.document_metadata ++ [⟨fm.file_id, fm.file_title, fm.file_url, schemaVal⟩] },
     [DbOp.selectMeta fm.file_id, DbOp.insertMeta fm.file_id])

/-- `insert_document_rows_async` (async_db_handler.py lines 215-250): delete
existing rows for the id, insert the new rows, return their number. -/
def insert_document_rows_async (fid : String) (rows : List RowData) (db : AsyncDB) :
    AsyncDB × List DbOp × Nat :=
  ({ db with document_rows :=
      (db.document_rows.filter (fun r => !(r.dataset_id == fid)) ++
        rows.map (fun r => ⟨fid, r⟩)) },
   DbOp.deleteRows fid :: rows.map (fun _ => DbOp.insertRow fid),
   rows.length)

def asyncChunkMeta (fm : FileMetadata) (i : Nat) : AsyncDocMeta :=
  ⟨fm.file_id, fm.file_url, fm.file_title, fm.mime_type, fm.case_study_metadata, i⟩

def asyncChunkRecords (fm : FileMetadata) :
    List (List Char) → List (List Int) → Nat → List AsyncDocRecord
  | [], _, _ => []
  | _, [], _ => []
  | c :: cs, e :: es, i => ⟨c, asyncChunkMeta fm i, e⟩ :: asyncChunkRecords fm cs es (i + 1)

/-- One attempt of the body of `insert_document_chunks_batch`
(async_db_handler.py lines 112-169): the mismatch `ValueError`, else all
batches of at most 100 records. -/
def insert_document_chunks_batch_once (chunks : List (List Char))
    (embeds : List (List Int)) (fm : FileMetadata) (db : AsyncDB) :
    Except String (AsyncDB × List DbOp × Nat) :=
  if chunks.length ≠ embeds.length then
    Except.error "Number of chunks and embeddings must match"
  else
    let data := asyncChunkRecords fm chunks embeds 0
    Except.ok ({ db with documents := db.documents ++ data },
      (batchesOf 100 data).map (fun b => DbOp.insertChunkBatch fm.file_id b.length),
      data.length)

/-- `insert_document_chunks_batch` as decorated by `@async_retry(max_attempts=3)`
(line 111): each attempt either hits the deterministic mismatch error or the
transient outcome `insertAttempt k`. -/
def insert_document_chunks_batch (insertAttempt : Nat → Except String Unit)
    (chunks : List (List Char)) (embeds : List (List Int)) (fm : FileMetadata)
    (db : AsyncDB) : Option (Except String (AsyncDB × List DbOp × Nat)) × Nat × List Nat :=
  async_retry 3 2 (fun k =>
    match insert_document_chunks_batch_once chunks embeds fm db with
    | Except.error e => Except.error e
    | Except.ok res =>
      match insertAttempt k with
      | Except.error e => Except.error e
      | Except.ok _ => Except.ok res)

/-- Steps 1-4 of `process_file_for_rag_async` (async_db_handler.py lines
287-308): delete, tabular check, metadata upsert, tabular rows.  Returns the
store, the trace and `rows_inserted`. -/
def asyncPreSteps (csvSchema : List String) (csvRows : List RowData)
    (fm : FileMetadata) (config : Config) (db : AsyncDB) :
    AsyncDB × List DbOp × Nat :=
  let s1 := delete_document_by_file_id_async fm.file_id db
  let isTab := if fm.mime_type.isEmpty then false else is_tabular_file fm.mime_type config
  let schema : Option (List String) := if isTab then some csvSchema else none
  let s2 := insert_or_update_document_metadata_async fm schema s1.1
  let s3 : AsyncDB × List DbOp × Nat :=
    if isTab then
      if csvRows.isEmpty then (s2.1, [], 0)
      else insert_document_rows_async fm.file_id csvRows s2.1
    else (s2.1, [], 0)
  (s3.1, s1.2 ++ s2.2 ++ s3.2.1, s3.2.2)

/-- `process_file_for_rag_async` (async_db_handler.py lines 253-369).  The
`@async_retry(3)` decorator on it never retries: the body's own `except`
converts every escaping exception into a failed `IngestionResult`, so each
call returns on the first attempt.  Result: the `IngestionResult`, the store,
the operation trace, and the retry sleeps of the batch insert. -/
def process_file_for_rag_async (embed : List (List Char) → Except String (List (List Int)))
    (csvSchema : List String) (csvRows : List RowData)
    (insertAttempt : Nat → Except String Unit)
    (text : List Char) (fm : FileMetadata) (config : Config) (db : AsyncDB) :
    IngestionResult × AsyncDB × List DbOp × List Nat :=
  let fmx := fm.case_study_metadata.isSome
  let pre := asyncPreSteps csvSchema csvRows fm config db
  match chunk_text text (config.chunkSizeD 400) (config.chunkOverlapD 0) with
  | Except.error e => (⟨false, fm.file_id, 0, 0, some e, fmx⟩, pre.1, pre.2.1, [])
  | Except.ok chunks =>
    if chunks.isEmpty then
      (⟨false, fm.file_id, 0, pre.2.2, some "No chunks created from text", fmx⟩,
       pre.1, pre.2.1, [])
    else
      match embed chunks with
      | Except.error e => (⟨false, fm.file_id, 0, 0, some e, fmx⟩, pre.1, pre.2.1, [])
      | Except.ok embeds =>
        match insert_document_chunks_batch insertAttempt chunks embeds fm pre.1 with
        | (some (Except.ok res), _, sleeps) =>
          (⟨true, fm.file_id, res.2.2, pre.2.2, none, fmx⟩, res.1, pre.2.1 ++ res.2.1, sleeps)
        | (some (Except.error e), _, sleeps) =>
          (⟨false, fm.file_id, 0, 0, some e, fmx⟩, pre.1, pre.2.1, sleeps)
        | (none, _, sleeps) =>
          (⟨false, fm.file_id, 0, 0, none, fmx⟩, pre.1, pre.2.1, sleeps)

/-! ## C6: write ordering within one ingestion run -/

/-- Writes against child tables (rows/chunks), including the row-table
delete that `insert_document_rows` itself issues. -/
def isChildWrite : DbOp → Bool
  | DbOp.deleteRows _ => true
  | DbOp.insertRow _ => true
  | DbOp.insertChunkBatch _ _ => true
  | _ => false

theorem rowOps_child (fid : String) (metricsRows : List RowData) :
    ∀ op ∈ (if metricsRows.isEmpty then ([] : List DbOp)
      else DbOp.deleteRows fid :: metricsRows.map (fun _ => DbOp.insertRow fid)),
      isChildWrite op = true := by
  intro op hop
  by_cases h : metricsRows.isEmpty
  · rw [if_pos h] at hop
    simp at hop
  · rw [if_neg h] at hop
    rcases List.mem_cons.mp hop with h1 | h2
    · rw [h1]
      rfl
    · obtain ⟨a, _, ha⟩ := List.mem_map.mp h2
      rw [← ha]
      rfl

theorem chunkOps_child (fid : String) (bs : List (List DocRecord)) :
    ∀ op ∈ bs.map (fun b => DbOp.insertChunkBatch fid b.length),
      isChildWrite op = true := by
  intro op hop
  obtain ⟨a, _, ha⟩ := List.mem_map.mp hop
  rw [← ha]
  rfl

theorem planTail_ops_shape (embed : List (List Char) → List (List Int))
    (fid furl ftitle : String) (mime : Option String) (fileText : List Char)
    (schemaData : SchemaData) (metricsRows : List RowData)
    (chunksList : List (List Char)) (enrichedMeta : Option (List EnrichedMeta)) :
    ∃ tail, (planTail embed fid furl ftitle mime fileText schemaData metricsRows chunksList
        enrichedMeta).ops = [DbOp.selectMeta fid, DbOp.insertMeta fid] ++ tail ∧
      ∀ op ∈ tail, isChildWrite op = true := by
  unfold planTail
  by_cases hcl : chunksList.isEmpty
  · rw [if_pos hcl]
    exact ⟨_, rfl, rowOps_child fid metricsRows⟩
  · rw [if_neg hcl]
    dsimp only
    by_cases hlen : chunksList.length ≠ (embed chunksList).length
    · rw [if_pos hlen]
      exact ⟨_, rfl, rowOps_child fid metricsRows⟩
    · rw [if_neg hlen]
      refine ⟨_, by rw [List.append_assoc], ?_⟩
      intro op hop
      rcases List.mem_append.mp hop with h1 | h2
      · exact rowOps_child fid metricsRows op h1
      · exact chunkOps_child fid _ op h2

theorem processPlan_ops_shape (embed : List (List Char) → List (List Int))
    (yaml : List Char → Except Unit YVal)
    (fileText text : List Char) (fid furl ftitle : String)
    (mime : Option String) (config : Config) :
    (processPlan embed yaml fileText text fid furl ftitle mime config).ops = [] ∨
    ∃ tail, (processPlan embed yaml fileText text fid furl ftitle mime config).ops =
        [DbOp.selectMeta fid, DbOp.insertMeta fid] ++ tail ∧
      ∀ op ∈ tail, isChildWrite op = true := by
  unfold processPlan
  by_cases hmk : isMarkdownMime mime ftitle
  · rw [if_pos hmk]
    cases hp : parse_case_study yaml fileText with
    | error e => exact Or.inl rfl
    | ok fmBody =>
      dsimp only
      exact Or.inr (planTail_ops_shape embed fid furl ftitle mime fileText _ _ _ _)
  · rw [if_neg hmk]
    cases hc : chunk_text text (config.chunkSizeD 1500) (config.chunkOverlapD 200) with
    | error e => exact Or.inl rfl
    | ok chunksList =>
      dsimp only
      exact Or.inr (planTail_ops_shape embed fid furl ftitle mime fileText _ _ _ _)

theorem asyncRetryLoop_ok {α : Type} (f : Nat → Except String α)
    (backoff maxAttempts : Nat) : ∀ (attempt remaining : Nat) (a : α),
    (asyncRetryLoop f backoff maxAttempts attempt remaining).1 = some (Except.ok a) →
    ∃ k, f k = Except.ok a := by
  intro attempt remaining
  induction remaining generalizing attempt with
  | zero =>
    intro a h
    simp [asyncRetryLoop] at h
  | succ m ih =>
    intro a h
    unfold asyncRetryLoop at h
    cases hf : f attempt with
    | ok b =>
      rw [hf] at h
      simp at h
      exact ⟨attempt, by rw [hf, h]⟩
    | error e =>
      rw [hf] at h
      dsimp only at h
      by_cases hlast : attempt = maxAttempts - 1
      · rw [if_pos hlast] at h
        simp at h
      · rw [if_neg hlast] at h
        exact ih (attempt + 1) a h

theorem delete_async_clean (fid : String) (db : AsyncDB) :
    ((delete_document_by_file_id_async fid db).1.document_metadata.any
      (fun r => r.id == fid)) = false := by
  apply List.any_eq_false.mpr
  intro r hr
  simpa using List.of_mem_filter hr

theorem upsert_async_after_delete (fm : FileMetadata) (dbA : AsyncDB)
    (s : Option (List String)) :
    insert_or_update_document_metadata_async fm s
        (delete_document_by_file_id_async fm.file_id dbA).1 =
      ({ (delete_document_by_file_id_async fm.file_id dbA).1 with
          document_metadata :=
            (delete_document_by_file_id_async fm.file_id dbA).1.document_metadata ++
              [⟨fm.file_id, fm.file_title, fm.file_url,
                match s with
                | some cols => if cols.isEmpty then none else some cols
                | none => none⟩] },
       [DbOp.selectMeta fm.file_id, DbOp.insertMeta fm.file_id]) := by
  unfold insert_or_update_document_metadata_async
  rw [delete_async_clean]
  simp

theorem asyncPreSteps_trace (csvSchema : List String) (csvRows : List RowData)
    (fm : FileMetadata) (config : Config) (dbA : AsyncDB) :
    ∃ t, (asyncPreSteps csvSchema csvRows fm config dbA).2.1 =
      [DbOp.deleteDocs fm.file_id, DbOp.deleteRows fm.file_id, DbOp.deleteMeta fm.file_id] ++
        ([DbOp.selectMeta fm.file_id, DbOp.insertMeta fm.file_id] ++ t) ∧
      ∀ op ∈ t, isChildWrite op = true := by
  unfold asyncPreSteps
  dsimp only
  rw [upsert_async_after_delete]
  dsimp only
  by_cases hmt : fm.mime_type.isEmpty
  · rw [if_pos hmt]
    simp only [Bool.false_eq_true, if_false]
    exact ⟨[], by simp [delete_document_by_file_id_async], by simp⟩
  · rw [if_neg hmt]
    by_cases htab : is_tabular_file fm.mime_type config = true
    · rw [htab]
      simp only [if_true]
      by_cases hcr : csvRows.isEmpty
      · rw [if_pos hcr]
        exact ⟨[], by simp [delete_document_by_file_id_async], by simp⟩
      · rw [if_neg hcr]
        refine ⟨DbOp.deleteRows fm.file_id :: csvRows.map (fun _ => DbOp.insertRow fm.file_id),
          by simp [delete_document_by_file_id_async, insert_document_rows_async], ?_⟩
        intro op hop
        rcases List.mem_cons.mp hop with h1 | h2
        · rw [h1]
          rfl
        · obtain ⟨a, _, ha⟩ := List.mem_map.mp h2
          rw [← ha]
          rfl
    · rw [if_neg htab]
      exact ⟨[], by simp [delete_document_by_file_id_async], by simp⟩

theorem insert_document_chunks_batch_ok_child (insertAttempt : Nat → Except String Unit)
    (chunks : List (List Char)) (embeds : List (List Int)) (fm : FileMetadata)
    (dbx : AsyncDB) (res : AsyncDB × List DbOp × Nat) (cnt : Nat) (sleeps : List Nat)
    (h : insert_document_chunks_batch insertAttempt chunks embeds fm dbx =
      (some (Except.ok res), cnt, sleeps)) :
    ∀ op ∈ res.2.1, isChildWrite op = true := by
  unfold insert_document_chunks_batch async_retry at h
  obtain ⟨k, hk⟩ := asyncRetryLoop_ok _ 2 3 0 3 res (by rw [h])
  cases honce : insert_document_chunks_batch_once chunks embeds fm dbx with
  | error e =>
    rw [honce] at hk
    dsimp only at hk
    cases hk
  | ok r0 =>
    rw [honce] at hk
    dsimp only at hk
    cases hatt : insertAttempt k with
    | error e =>
      rw [hatt] at hk
      dsimp only at hk
      cases hk
    | ok u =>
      rw [hatt] at hk
      dsimp only at hk
      injection hk with hres
      subst hres
      unfold insert_document_chunks_batch_once at honce
      by_cases hlen : chunks.length ≠ embeds.length
      · rw [if_pos hlen] at honce
        cases honce
      · rw [if_neg hlen] at honce
        dsimp only at honce
        injection honce with h3
        rw [← h3]
        intro op hop
        obtain ⟨b, _, hb⟩ := List.mem_map.mp hop
        rw [← hb]
        rfl

/-- C6: write ordering within a single ingestion run.  For the synchronous
`process_file_for_rag`, the operation trace is either just the three initial
deletes (the body aborted before any write) or those deletes followed by the
metadata upsert (`select` then `insert`) followed only by child-table writes
(row deletes/inserts and chunk-batch inserts).  For
`process_file_for_rag_async` the trace always starts with the three deletes
and the metadata upsert, followed only by child-table writes.  (The row-table
delete that `insert_document_rows` issues internally is one of those
child-table writes and comes after the upsert.) -/
theorem C6_write_ordering
    (embed : List (List Char) → List (List Int))
    (yaml : List Char → Except Unit YVal)
    (fileText text : List Char) (fid furl ftitle : String)
    (mime : Option String) (config : Config) (db : DB)
    (embedA : List (List Char) → Except String (List (List Int)))
    (csvSchema : List String) (csvRows : List RowData)
    (insertAttempt : Nat → Except String Unit)
    (textA : List Char) (fmA : FileMetadata) (configA : Config) (dbA : AsyncDB) :
    ((process_file_for_rag embed yaml fileText text fid furl ftitle mime config db).2.2 =
        [DbOp.deleteDocs fid, DbOp.deleteRows fid, DbOp.deleteMeta fid] ∨
      ∃ tail, (process_file_for_rag embed yaml fileText text fid furl ftitle mime config
          db).2.2 =
          [DbOp.deleteDocs fid, DbOp.deleteRows fid, DbOp.deleteMeta fid] ++
            ([DbOp.selectMeta fid, DbOp.insertMeta fid] ++ tail) ∧
        ∀ op ∈ tail, isChildWrite op = true) ∧
    (∃ tailA, (process_file_for_rag_async embedA csvSchema csvRows insertAttempt textA fmA
          configA dbA).2.2.1 =
        [DbOp.deleteDocs fmA.file_id, DbOp.deleteRows fmA.file_id,
          DbOp.deleteMeta fmA.file_id] ++
          ([DbOp.selectMeta fmA.file_id, DbOp.insertMeta fmA.file_id] ++ tailA) ∧
        ∀ op ∈ tailA, isChildWrite op = true) := by
  constructor
  · obtain ⟨h1, h2, h3⟩ := delete_clean fid db
    have hrun := process_run_of_delete embed yaml fileText text fid furl ftitle mime config db
      (delete_document_by_file_id fid db).1 rfl h3 h2
    rw [hrun]
    dsimp only
    rcases processPlan_ops_shape embed yaml fileText text fid furl ftitle mime config with
      h | ⟨tail, ht, hc⟩
    · left
      rw [h, List.append_nil]
    · right
      exact ⟨tail, by rw [ht], hc⟩
  · obtain ⟨t, ht, hc⟩ := asyncPreSteps_trace csvSchema csvRows fmA configA dbA
    unfold process_file_for_rag_async
    dsimp only
    cases hct : chunk_text textA (configA.chunkSizeD 400) (configA.chunkOverlapD 0) with
    | error e => exact ⟨t, ht, hc⟩
    | ok chunks =>
      dsimp only
      by_cases hce : chunks.isEmpty
      · rw [if_pos hce]
        exact ⟨t, ht, hc⟩
      · rw [if_neg hce]
        cases hemb : embedA chunks with
        | error e => exact ⟨t, ht, hc⟩
        | ok embeds =>
          dsimp only
          rcases hins : insert_document_chunks_batch insertAttempt chunks embeds fmA
              (asyncPreSteps csvSchema csvRows fmA configA dbA).1 with ⟨ores, cnt, sleeps⟩
          cases ores with
          | none => exact ⟨t, ht, hc⟩
          | some r =>
            cases r with
            | error e => exact ⟨t, ht, hc⟩
            | ok res =>
              dsimp only
              refine ⟨t ++ res.2.1, ?_, ?_⟩
              · rw [ht]
                simp [List.append_assoc]
              · intro op hop
                rcases List.mem_append.mp hop with hop1 | hop2
                · exact hc op hop1
                · exact insert_document_chunks_batch_ok_child insertAttempt chunks embeds fmA
                    _ res cnt sleeps hins op hop2

/-! ## C8: retry policy and exception conversion -/

theorem asyncRetry3_eq {α : Type} (g : Nat → Except String α) (backoff : Nat) :
    async_retry 3 backoff g =
      (match g 0 with
      | Except.ok a => (some (Except.ok a), 1, [])
      | Except.error _ =>
        match g 1 with
        | Except.ok a => (some (Except.ok a), 2, [backoff ^ 0])
        | Except.error _ =>
          match g 2 with
          | Except.ok a => (some (Except.ok a), 3, [backoff ^ 0, backoff ^ 1])
          | Except.error e => (some (Except.error e), 3, [backoff ^ 0, backoff ^ 1])) := by
  cases h0 : g 0 <;> cases h1 : g 1 <;> cases h2 : g 2 <;>
    simp [async_retry, asyncRetryLoop, h0, h1, h2]

/-- C8: retry policy.  With `max_attempts = 3`, `async_retry` invokes the
wrapped body at most 3 times; the sleep after zero-based failed attempt `a`
is `backoff_factor ^ a`, so the recorded sleeps are exactly
`backoff ^ 0, …` for the consecutive failed non-final attempts; when all
three attempts fail, the third attempt's exception is re-raised unchanged
(after exactly the sleeps `backoff ^ 0`, `backoff ^ 1`); any success value is
the result of an actual invocation of the body; and
`process_file_for_rag_async` converts an exception escaping its body (here:
the embeddings call) into an `IngestionResult` with `success = false`
carrying that exception's message, instead of propagating it. -/
theorem C8_retry_policy {α : Type} (f : Nat → Except String α) (backoff : Nat)
    (e0 e1 e2 : String)
    (hf0 : f 0 = Except.error e0) (hf1 : f 1 = Except.error e1)
    (hf2 : f 2 = Except.error e2)
    (embedA : List (List Char) → Except String (List (List Int)))
    (csvSchema : List String) (csvRows : List RowData)
    (insertAttempt : Nat → Except String Unit)
    (textA : List Char) (fmA : FileMetadata) (configA : Config) (dbA : AsyncDB)
    (msg : String) (chunks : List (List Char))
    (hct : chunk_text textA (configA.chunkSizeD 400) (configA.chunkOverlapD 0) =
      Except.ok chunks)
    (hne : chunks.isEmpty = false)
    (hemb : embedA chunks = Except.error msg) :
    (∀ (g : Nat → Except String α), (async_retry 3 backoff g).2.1 ≤ 3) ∧
    (∀ (g : Nat → Except String α), (async_retry 3 backoff g).2.2 =
      (List.range ((async_retry 3 backoff g).2.1 - 1)).map (fun a => backoff ^ a)) ∧
    async_retry 3 backoff f =
      (some (Except.error e2), 3, [backoff ^ 0, backoff ^ 1]) ∧
    (∀ (g : Nat → Except String α) (a : α),
      (async_retry 3 backoff g).1 = some (Except.ok a) → ∃ k, g k = Except.ok a) ∧
    (process_file_for_rag_async embedA csvSchema csvRows insertAttempt textA fmA configA
        dbA).1.success = false ∧
    (process_file_for_rag_async embedA csvSchema csvRows insertAttempt textA fmA configA
        dbA).1.error_message = some msg := by
  have hproc : (process_file_for_rag_async embedA csvSchema csvRows insertAttempt textA
      fmA configA dbA).1 =
      ⟨false, fmA.file_id, 0, 0, some msg, fmA.case_study_metadata.isSome⟩ := by
    unfold process_file_for_rag_async
    dsimp only
    rw [hct]
    dsimp only
    simp only [hne, Bool.false_eq_true, if_false]
    rw [hemb]
  refine ⟨?_, ?_, ?_, ?_, ?_, ?_⟩
  · intro g
    rw [asyncRetry3_eq]
    cases h0 : g 0 <;> cases h1 : g 1 <;> cases h2 : g 2 <;> simp
  · intro g
    rw [asyncRetry3_eq]
    cases h0 : g 0 <;> cases h1 : g 1 <;> cases h2 : g 2 <;>
      simp [List.range_succ]
  · rw [asyncRetry3_eq, hf0, hf1, hf2]
  · intro g a h
    unfold async_retry at h
    exact asyncRetryLoop_ok g backoff 3 0 3 a h
  · rw [hproc]
  · rw [hproc]

theorem C8_retry_policy_witness :
    async_retry 3 2 (fun _ => (Except.error "boom" : Except String Unit)) =
      (some (Except.error "boom"), 3, [2 ^ 0, 2 ^ 1]) ∧
    (process_file_for_rag_async (fun _ => Except.error "embed down") [] []
        (fun _ => Except.ok ()) (chars "hello")
        ⟨"f1", "u", "t", "text/plain", none⟩ ⟨none, none⟩ ⟨[], [], []⟩).1.success = false :=
  ⟨(C8_retry_policy (fun _ => (Except.error "boom" : Except String Unit)) 2 "boom" "boom"
      "boom" rfl rfl rfl (fun _ => Except.error "embed down") [] [] (fun _ => Except.ok ())
      (chars "hello") ⟨"f1", "u", "t", "text/plain", none⟩ ⟨none, none⟩ ⟨[], [], []⟩
      "embed down" [chars "hello"] (by rfl) rfl rfl).2.2.1,
   (C8_retry_policy (fun _ => (Except.error "boom" : Except String Unit)) 2 "boom" "boom"
      "boom" rfl rfl rfl (fun _ => Except.error "embed down") [] [] (fun _ => Except.ok ())
      (chars "hello") ⟨"f1", "u", "t", "text/plain", none⟩ ⟨none, none⟩ ⟨[], [], []⟩
      "embed down" [chars "hello"] (by rfl) rfl rfl).2.2.2.2.1⟩

/-! ## C9: chunking-strategy selection and batch sizes -/

theorem chunkRecords_contents (fid furl ftitle : String) (mime : Option String)
    (fc : Option (List Char)) (en : Option (List EnrichedMeta)) :
    ∀ (chunks : List (List Char)) (embeds : List (List Int)) (i : Nat),
      chunks.length = embeds.length →
      (chunkRecords fid furl ftitle mime fc en chunks embeds i).map (fun r => r.content) =
        chunks := by
  intro chunks
  induction chunks with
  | nil =>
    intro embeds i h
    cases embeds with
    | nil => rfl
    | cons e es => simp at h
  | cons c cs ih =>
    intro embeds i h
    cases embeds with
    | nil => simp at h
    | cons e es =>
      have hrec := ih es (i + 1) (by simpa using h)
      simp [chunkRecords, hrec]

theorem planTail_newDocs_contents (embed : List (List Char) → List (List Int))
    (fid furl ftitle : String) (mime : Option String) (fileText : List Char)
    (schemaData : SchemaData) (metricsRows : List RowData)
    (chunksList : List (List Char)) (enrichedMeta : Option (List EnrichedMeta))
    (hlen : (embed chunksList).length = chunksList.length) :
    (planTail embed fid furl ftitle mime fileText schemaData metricsRows chunksList
        enrichedMeta).newDocs.map (fun r => r.content) = chunksList := by
  unfold planTail
  by_cases hcl : chunksList.isEmpty
  · rw [if_pos hcl]
    simp [List.isEmpty_iff.mp hcl]
  · rw [if_neg hcl]
    dsimp only
    rw [if_neg (by omega)]
    dsimp only
    by_cases himg : isImageMime mime
    · rw [if_pos himg, if_pos himg]
      exact chunkRecords_contents fid furl ftitle mime _ _ chunksList (embed chunksList) 0
        hlen.symm
    · rw [if_neg himg, if_neg himg]
      exact chunkRecords_contents fid furl ftitle mime _ _ chunksList (embed chunksList) 0
        hlen.symm

theorem planTail_batch_le (embed : List (List Char) → List (List Int))
    (fid furl ftitle : String) (mime : Option String) (fileText : List Char)
    (schemaData : SchemaData) (metricsRows : List RowData)
    (chunksList : List (List Char)) (enrichedMeta : Option (List EnrichedMeta)) :
    ∀ op ∈ (planTail embed fid furl ftitle mime fileText schemaData metricsRows chunksList
        enrichedMeta).ops, ∀ f2 k, op = DbOp.insertChunkBatch f2 k → k ≤ 100 := by
  have hmr : ∀ op ∈ (if metricsRows.isEmpty then ([] : List DbOp)
      else DbOp.deleteRows fid :: metricsRows.map (fun _ => DbOp.insertRow fid)),
      ∀ f2 k, op = DbOp.insertChunkBatch f2 k → False := by
    intro op hop f2 k heq
    by_cases h : metricsRows.isEmpty
    · rw [if_pos h] at hop
      simp at hop
    · rw [if_neg h] at hop
      rcases List.mem_cons.mp hop with h1 | h2
      · rw [h1] at heq
        cases heq
      · obtain ⟨a, _, ha⟩ := List.mem_map.mp h2
        rw [← ha] at heq
        cases heq
  have hsel : ∀ op ∈ [DbOp.selectMeta fid, DbOp.insertMeta fid],
      ∀ f2 k, op = DbOp.insertChunkBatch f2 k → False := by
    intro op hop f2 k heq
    simp only [List.mem_cons, List.mem_singleton] at hop
    rcases hop with h1 | h1 | h1
    · rw [h1] at heq
      cases heq
    · rw [h1] at heq
      cases heq
    · simp at h1
  unfold planTail
  by_cases hcl : chunksList.isEmpty
  · rw [if_pos hcl]
    intro op hop f2 k heq
    rcases List.mem_append.mp hop with h1 | h2
    · exact (hsel op h1 f2 k heq).elim
    · exact (hmr op h2 f2 k heq).elim
  · rw [if_neg hcl]
    dsimp only
    by_cases hlen : chunksList.length ≠ (embed chunksList).length
    · rw [if_pos hlen]
      intro op hop f2 k heq
      rcases List.mem_append.mp hop with h1 | h2
      · exact (hsel op h1 f2 k heq).elim
      · exact (hmr op h2 f2 k heq).elim
    · rw [if_neg hlen]
      intro op hop f2 k heq
      rcases List.mem_append.mp hop with h12 | h3
      · rcases List.mem_append.mp h12 with h1 | h2
        · exact (hsel op h1 f2 k heq).elim
        · exact (hmr op h2 f2 k heq).elim
      · obtain ⟨b, hb, hbop⟩ := List.mem_map.mp h3
        rw [← hbop] at heq
        injection heq with hf hk
        rw [← hk]
        unfold batchesOf at hb
        exact batchesOfF_sizes 100 (by omega) _ _ (by omega) b hb

theorem processPlan_batch_le (embed : List (List Char) → List (List Int))
    (yaml : List Char → Except Unit YVal)
    (fileText text : List Char) (fid furl ftitle : String)
    (mime : Option String) (config : Config) :
    ∀ op ∈ (processPlan embed yaml fileText text fid furl ftitle mime config).ops,
      ∀ f2 k, op = DbOp.insertChunkBatch f2 k → k ≤ 100 := by
  unfold processPlan
  by_cases hmk : isMarkdownMime mime ftitle
  · rw [if_pos hmk]
    cases hp : parse_case_study yaml fileText with
    | error e =>
      intro op hop
      simp at hop
    | ok fmBody =>
      dsimp only
      exact planTail_batch_le embed fid furl ftitle mime fileText _ _ _ _
  · rw [if_neg hmk]
    cases hc : chunk_text text (config.chunkSizeD 1500) (config.chunkOverlapD 200) with
    | error e =>
      intro op hop
      simp at hop
    | ok chunksList =>
      dsimp only
      exact planTail_batch_le embed fid furl ftitle mime fileText _ _ _ _

def embedC9 : List (List Char) → List (List Int) :=
  fun l => l.map (fun _ => ([0] : List Int))

def yamlC9 : List Char → Except Unit YVal := fun _ => Except.error ()

/-- C9 counterexample: the claim's "section-aware exactly when markdown *with
frontmatter*" is wrong.  A markdown file with no frontmatter
(`"hello"`, mime `text/markdown`) still gets section-aware chunking: the one
inserted chunk is the fallback section `"# Document\n\nhello"`, not the plain
`chunk_text` output `"hello"`. -/
theorem C9_counterexample :
    isMarkdownMime (some "text/markdown") "a.md" = true ∧
    parse_case_study yamlC9 (chars "hello") = Except.ok (none, chars "hello") ∧
    chunk_text (chars "hello") 1500 200 = Except.ok [chars "hello"] ∧
    (processPlan embedC9 yamlC9 (chars "hello") (chars "hello") "f" "u" "a.md"
        (some "text/markdown") ⟨none, none⟩).newDocs.map (fun r => r.content) =
      [chars "# Document\n\nhello"] ∧
    [chars "# Document\n\nhello"] ≠ [chars "hello"] :=
  ⟨by decide, by rfl, by rfl, by rfl, by decide⟩

/-- C9 (amended): the chunking strategy depends only on the markdown test
(`mime` contains `text/markdown`, or is a `text/*` type with an `.md` title)
— section-aware chunking for **every** markdown file, with or without
frontmatter, and plain fixed-window `chunk_text` for everything else; and
every chunk-batch insert issued by a run carries at most 100 records. -/
theorem C9_chunking_selection (embed : List (List Char) → List (List Int))
    (yaml : List Char → Except Unit YVal)
    (fileText text : List Char) (fid furl ftitle : String)
    (mime : Option String) (config : Config) (db : DB)
    (hembed : ∀ l, (embed l).length = l.length) :
    (∀ fmBody, isMarkdownMime mime ftitle = true →
      parse_case_study yaml fileText = Except.ok fmBody →
      (processPlan embed yaml fileText text fid furl ftitle mime config).newDocs.map
          (fun r => r.content) =
        (create_section_aware_chunks fmBody.2 fmBody.1 (config.chunkSizeD 1500) fid furl
          ftitle).map (fun c => c.content)) ∧
    (∀ chunksList, isMarkdownMime mime ftitle = false →
      chunk_text text (config.chunkSizeD 1500) (config.chunkOverlapD 200) =
        Except.ok chunksList →
      (processPlan embed yaml fileText text fid furl ftitle mime config).newDocs.map
          (fun r => r.content) = chunksList) ∧
    (∀ op ∈ (process_file_for_rag embed yaml fileText text fid furl ftitle mime config
        db).2.2, ∀ f2 k, op = DbOp.insertChunkBatch f2 k → k ≤ 100) := by
  refine ⟨?_, ?_, ?_⟩
  · intro fmBody hmk hp
    unfold processPlan
    rw [if_pos hmk, hp]
    dsimp only
    exact planTail_newDocs_contents embed fid furl ftitle mime fileText _ _ _ _ (hembed _)
  · intro chunksList hmk hc
    unfold processPlan
    rw [if_neg (by rw [hmk]; exact Bool.false_ne_true), hc]
    dsimp only
    exact planTail_newDocs_contents embed fid furl ftitle mime fileText _ _ _ _ (hembed _)
  · obtain ⟨h1, h2, h3⟩ := delete_clean fid db
    have hrun := process_run_of_delete embed yaml fileText text fid furl ftitle mime config db
      (delete_document_by_file_id fid db).1 rfl h3 h2
    rw [hrun]
    dsimp only
    intro op hop f2 k heq
    rcases List.mem_append.mp hop with hdel | hplan
    · simp only [List.mem_cons, List.mem_singleton] at hdel
      rcases hdel with hd | hd | hd | hd
      · rw [hd] at heq
        cases heq
      · rw [hd] at heq
        cases heq
      · rw [hd] at heq
        cases heq
      · simp at hd
    · exact processPlan_batch_le embed yaml fileText text fid furl ftitle mime config
        op hplan f2 k heq

/-- C9 witness: the markdown-without-frontmatter input of the counterexample,
with a unit embedder. -/
theorem C9_chunking_selection_witness :
    (∀ l, (embedC9 l).length = l.length) ∧
    (processPlan embedC9 yamlC9 (chars "hello") (chars "hello") "f" "u" "a.md"
        (some "text/markdown") ⟨none, none⟩).newDocs.map (fun r => r.content) =
      (create_section_aware_chunks (chars "hello") none 1500 "f" "u" "a.md").map
        (fun c => c.content) :=
  ⟨fun l => List.length_map l _,
   (C9_chunking_selection embedC9 yamlC9 (chars "hello") (chars "hello") "f" "u" "a.md"
      (some "text/markdown") ⟨none, none⟩ ⟨[], [], []⟩ (fun l => List.length_map l _)).1
     (none, chars "hello") (by decide) (by rfl)⟩
